import Mathlib

/-!
Shallow embedding of the bucketed hash table in `src/task1/task1.cpp`
(`template<class KeyType, class ValueType, class Hash> class HashMap` together
with `HashMapIterator` / `HashMapConstIterator`), and proofs of the spec claims
about it.

The C++ class stores `std::vector<std::vector<std::pair<const KeyType, ValueType>>> Table`
(a list of buckets of key-value entries), a size counter `Sz`, and a hash
function `HashFunction`.  We embed it as a Lean structure over arbitrary key
and value types with decidable key equality, with the hash function a field of
type `K → Nat` (C++ `size_t` hashes; the only use is `HashFunction(Key) % Table.size()`,
so modelling the hash codes as unbounded naturals is faithful: `%` is applied
explicitly exactly where the source applies it).

Out-of-range vector indexing, which is undefined behaviour in C++
(`Table[i]` with `i >= Table.size()`, or reading `(*Table)[First][Second]`
past the end of a bucket), is embedded by the total functions `List.getD`
(reads return an arbitrary junk/default value) and `List.set` (writes out of
range are dropped).  No theorem below relies on the value of such a junk read:
counterexamples that touch undefined behaviour are stated about lengths and
sizes only, which are independent of the junk value.
-/

set_option linter.unusedVariables false

/-- Embedding of the C++ `HashMap` object state: hash function, bucket array
(`Table`), stored-items counter (`Sz`). -/
structure HashMap (K V : Type) where
  HashFunction : K → Nat
  Table : List (List (K × V))
  Sz : Nat

namespace HashMap

variable {K V : Type} [DecidableEq K]

/-- `static constexpr size_t LoadFactor = 10`. -/
def LoadFactor : Nat := 10

/-- `static constexpr size_t ResizeFactor = 2`. -/
def ResizeFactor : Nat := 2

/-- The default-constructed map: the constructor runs `initialize()`, i.e.
`Table.resize(1)`, giving one empty bucket and `Sz = 0`. -/
def mk0 (h : K → Nat) : HashMap K V :=
  ⟨h, [[]], 0⟩

/-- All entries stored in the table, in bucket-ascending order and, within a
bucket, in the order they were appended (`push_back`) to that bucket. -/
def items (m : HashMap K V) : List (K × V) :=
  m.Table.flatten

/-- Bucket number `i` (`Table[i]`; out of range reads as `[]`). -/
def bucketAt (m : HashMap K V) (i : Nat) : List (K × V) :=
  m.Table.getD i []

/-- `get_hash`: `HashFunction(Key) % Table.size()`. -/
def get_hash (m : HashMap K V) (k : K) : Nat :=
  m.HashFunction k % m.Table.length

/-- The end iterator's cursor: `get_iterator(Table.size())`, i.e. bucket index
`Table.size()`, item index `0`. -/
def endCur (m : HashMap K V) : Nat × Nat :=
  (m.Table.length, 0)

/-- The cursor returned by `begin()`: the end cursor when the table is empty,
otherwise `get_iterator()` = `(0, 0)` (bucket 0, item 0 — even when bucket 0
itself is empty). -/
def beginCur (m : HashMap K V) : Nat × Nat :=
  if m.Sz = 0 then endCur m else (0, 0)

/-- The loop of `find`: scan a bucket for the first index `j` whose entry has
the wanted key (`for (j = 0; j != Table[i].size(); ++j) if (Table[i][j].first == Key)`). -/
def findSlot (k : K) : List (K × V) → Option Nat
  | [] => none
  | p :: rest => if p.1 = k then some 0 else (findSlot k rest).map (· + 1)

/-- `find(Key)`: returns the end cursor on an empty table, otherwise scans
bucket `get_hash(Key)` and returns `(i, j)` on a key match, the end cursor if
the bucket holds no such key.  (The `const` and non-`const` C++ overloads have
identical bodies; this single function embeds both.) -/
def findCur (m : HashMap K V) (k : K) : Nat × Nat :=
  if m.Sz = 0 then endCur m
  else
    match findSlot k (bucketAt m (get_hash m k)) with
    | some j => (get_hash m k, j)
    | none => endCur m

/-- Iterator dereference `(*Table)[First][Second]` (out-of-range reads give a
junk default value, standing for C++ undefined behaviour). -/
def derefAt [Inhabited K] [Inhabited V] (T : List (List (K × V))) (c : Nat × Nat) : K × V :=
  (T.getD c.1 []).getD c.2 default

/-- The entry `find(k)` dereferences to, as an `Option`: `none` when
`find(k) == end()`. -/
def findEntry [Inhabited K] [Inhabited V] (m : HashMap K V) (k : K) : Option (K × V) :=
  if findCur m k = endCur m then none else some (derefAt m.Table (findCur m k))

/-- The value `find(k)` dereferences to (`find(k)->second`), as an `Option`. -/
def findVal [Inhabited K] [Inhabited V] (m : HashMap K V) (k : K) : Option V :=
  (findEntry m k).map Prod.snd

/-- `add(Item)`: `++Sz; Table[get_hash(Item.first)].push_back(Item)`. -/
def add (m : HashMap K V) (kv : K × V) : HashMap K V :=
  { m with
    Sz := m.Sz + 1,
    Table := m.Table.set (get_hash m kv.1) (m.Table.getD (get_hash m kv.1) [] ++ [kv]) }

/-- `is_dense()`: `size() > Table.size() * LoadFactor`. -/
def is_dense (m : HashMap K V) : Bool :=
  decide (m.Table.length * LoadFactor < m.Sz)

/-- `is_sparse()`: `size() * LoadFactor < Table.size()`. -/
def is_sparse (m : HashMap K V) : Bool :=
  decide (m.Sz * LoadFactor < m.Table.length)

/-- `resize(n)`: zero `Sz`, swap the table out, make `n` fresh empty buckets,
re-`add` every item of every old bucket (each `add` hashing modulo the new
bucket count `n`), and finally run `initialize()` (one empty bucket) if the
bucket count is 0. -/
def resize (m : HashMap K V) (n : Nat) : HashMap K V :=
  let old := m.Table
  let m1 : HashMap K V := { m with Sz := 0, Table := List.replicate n [] }
  let m2 := old.foldl (fun acc b => b.foldl (fun a kv => add a kv) acc) m1
  if m2.Table.length = 0 then { m2 with Table := [[]] } else m2

/-- `insert(Item)`: no-op when `find` hits; otherwise `add`, then grow to
`size() * ResizeFactor` buckets if dense, else shrink to
`size() / ResizeFactor` buckets if sparse. -/
def insert (m : HashMap K V) (kv : K × V) : HashMap K V :=
  if findCur m kv.1 ≠ endCur m then m
  else
    let m1 := add m kv
    if is_dense m1 then resize m1 (m1.Sz * ResizeFactor)
    else if is_sparse m1 then resize m1 (m1.Sz / ResizeFactor)
    else m1

/-- `del(Key)`: rebuild bucket `get_hash(Key)` keeping the entries whose key
differs from `Key`; swap it in and decrement `Sz` only if the length changed. -/
def del (m : HashMap K V) (k : K) : HashMap K V :=
  let i := get_hash m k
  let nb := (bucketAt m i).filter (fun p => decide (¬ p.1 = k))
  if nb.length ≠ (bucketAt m i).length then
    { m with Table := m.Table.set i nb, Sz := m.Sz - 1 }
  else m

/-- `erase(Key)`: `del`, then the same dense/sparse resize step as `insert`. -/
def erase (m : HashMap K V) (k : K) : HashMap K V :=
  let m1 := del m k
  if is_dense m1 then resize m1 (m1.Sz * ResizeFactor)
  else if is_sparse m1 then resize m1 (m1.Sz / ResizeFactor)
  else m1

/-- `clear()`: `Sz = 0; Table.clear(); initialize()` — one empty bucket. -/
def clear (m : HashMap K V) : HashMap K V :=
  { m with Sz := 0, Table := [[]] }

/-- `at(Key)` (a `const` member: it cannot modify the table, so it is embedded
as a pure function of it): value on a hit, `std::out_of_range("incorrect key")`
on a miss. -/
def atVal [Inhabited K] [Inhabited V] (m : HashMap K V) (k : K) : Except String V :=
  if findCur m k = endCur m then Except.error "incorrect key"
  else Except.ok (derefAt m.Table (findCur m k)).2

/-- `operator[](Key)`: `find`; on a miss `insert({Key, ValueType()})` and
`find` again.  Returns the updated table together with the cursor of the
returned reference `j->second`. -/
def indexCur [Inhabited V] (m : HashMap K V) (k : K) : HashMap K V × (Nat × Nat) :=
  if findCur m k = endCur m then
    let m1 := insert m (k, (default : V))
    (m1, findCur m1 k)
  else (m, findCur m k)

/-- A write through the mutable reference returned by `operator[]` (or by
iterator dereference): overwrite the value stored at cursor `c`, keeping the
key. -/
def writeCur [Inhabited K] [Inhabited V] (m : HashMap K V) (c : Nat × Nat) (v : V) : HashMap K V :=
  { m with
    Table := m.Table.set c.1
      ((m.Table.getD c.1 []).set c.2 (((m.Table.getD c.1 []).getD c.2 default).1, v)) }

/-- The `while` loop of `HashMapIterator::operator++`: starting at bucket
index `i`, advance past empty buckets until a non-empty bucket or the bucket
count is reached. -/
def skipEmpty (T : List (List (K × V))) (i : Nat) : Nat :=
  if h : i < T.length then
    if (T.get ⟨i, h⟩).length = 0 then skipEmpty T (i + 1) else i
  else i
termination_by T.length - i

/-- `HashMapIterator::operator++` on cursor `c`: increment the item index; if
it reaches the bucket's size, move to the next non-empty bucket (or the end)
and reset the item index to 0. -/
def inc (T : List (List (K × V))) (c : Nat × Nat) : Nat × Nat :=
  if (T.getD c.1 []).length ≤ c.2 + 1 then (skipEmpty T (c.1 + 1), 0)
  else (c.1, c.2 + 1)

omit [DecidableEq K] in
theorem skipEmpty_ge (T : List (List (K × V))) (i : Nat) : i ≤ skipEmpty T i := by
  unfold skipEmpty
  split
  · split
    · exact Nat.le_trans (Nat.le_succ i) (skipEmpty_ge T (i + 1))
    · exact Nat.le_refl i
  · exact Nat.le_refl i
termination_by T.length - i

/-- The list of cursors visited by the loop
`for (auto it = cursor; it != end(); ++it)` starting from cursor `(b, s)`:
each visited cursor is dereferenced by the loop body before `operator++` runs.
The body of `operator++` (see `inc`) is inlined in the recursive calls;
`visitCur_inc` below re-states the recursion through `inc` itself. -/
def visitCur (T : List (List (K × V))) (b s : Nat) : List (Nat × Nat) :=
  if h : b < T.length then
    (b, s) ::
      (if (T.getD b []).length ≤ s + 1 then visitCur T (skipEmpty T (b + 1)) 0
       else visitCur T b (s + 1))
  else []
termination_by (T.length - b, (T.getD b []).length - s)
decreasing_by
  · apply Prod.Lex.left
    have h1 : b + 1 ≤ skipEmpty T (b + 1) := skipEmpty_ge T (b + 1)
    omega
  · apply Prod.Lex.right
    omega

omit [DecidableEq K] in
/-- The recursion of `visitCur` is exactly: visit the cursor, step with
`operator++` (`inc`), continue. -/
theorem visitCur_inc (T : List (List (K × V))) (b s : Nat) :
    visitCur T b s =
      if b < T.length then
        (b, s) :: visitCur T (inc T (b, s)).1 (inc T (b, s)).2
      else [] := by
  rw [visitCur]
  unfold inc
  split
  · split
    · rfl
    · rfl
  · rfl

/-- The cursors visited by iterating from `begin()` to `end()`. -/
def iterCurs (m : HashMap K V) : List (Nat × Nat) :=
  visitCur m.Table (beginCur m).1 (beginCur m).2

/-- The entries obtained by dereferencing each cursor visited between
`begin()` and `end()`. -/
def iterVals [Inhabited K] [Inhabited V] (m : HashMap K V) : List (K × V) :=
  (iterCurs m).map (derefAt m.Table)

/-- `operator=(Oth)` for distinct objects: `clear()` the destination, then
`for (auto elem : Oth) insert(elem)` — insert the source's entries in its
iteration order. -/
def assign [Inhabited K] [Inhabited V] (dst src : HashMap K V) : HashMap K V :=
  (iterVals src).foldl insert (clear dst)

/-- `operator=` in the aliased case `a = a`: `clear()` runs on the shared
object first, so the subsequent range-`for` iterates over the already-cleared
table (its `begin()` equals its `end()`) and inserts nothing. -/
def selfAssign [Inhabited K] [Inhabited V] (m : HashMap K V) : HashMap K V :=
  let m1 := clear m
  (iterVals m1).foldl insert m1

/-- The initializer-list / iterator-range constructors: start from the
default-constructed table and `insert` each pair in order. -/
def fromList [Inhabited K] [Inhabited V] (h : K → Nat) (l : List (K × V)) : HashMap K V :=
  l.foldl insert (mk0 h)

/-- A structural-mutation operation on the table (the operations of the claim
about entry persistence: `insert` and `erase`). -/
inductive Op (K V : Type) where
  | ins : K × V → Op K V
  | del : K → Op K V
deriving DecidableEq

/-- Run one operation. -/
def applyOp (m : HashMap K V) : Op K V → HashMap K V
  | Op.ins kv => insert m kv
  | Op.del k => erase m k

/-- Run a sequence of operations, oldest first. -/
def applyOps (m : HashMap K V) (ops : List (Op K V)) : HashMap K V :=
  ops.foldl applyOp m

/-- The moduli passed to `%` by each evaluation of `get_hash` during
`resize(n)`'s rehash loop: one evaluation per rehashed item, each against the
new bucket count `n` (the adds keep the bucket count at `n`). -/
def resizeModuli (m : HashMap K V) (n : Nat) : List Nat :=
  List.replicate (items m).length n

/-- The moduli passed to `%` by each evaluation of `get_hash` during
`insert(Item)`, in evaluation order: one inside `find` (unless the table is
empty, in which case `find` returns early), then — when the key is new — one
inside `add`, then the rehash moduli of the triggered `resize`, if any. -/
def insertModuli (m : HashMap K V) (kv : K × V) : List Nat :=
  (if m.Sz = 0 then [] else [m.Table.length]) ++
    if findCur m kv.1 ≠ endCur m then []
    else
      [m.Table.length] ++
        (let m1 := add m kv
         if is_dense m1 then resizeModuli m1 (m1.Sz * ResizeFactor)
         else if is_sparse m1 then resizeModuli m1 (m1.Sz / ResizeFactor)
         else [])

/-- The moduli passed to `%` by each evaluation of `get_hash` during
`erase(Key)`: one inside `del` (unconditional), then the rehash moduli of the
triggered `resize`, if any. -/
def eraseModuli (m : HashMap K V) (k : K) : List Nat :=
  [m.Table.length] ++
    (let m1 := del m k
     if is_dense m1 then resizeModuli m1 (m1.Sz * ResizeFactor)
     else if is_sparse m1 then resizeModuli m1 (m1.Sz / ResizeFactor)
     else [])

/-- Structural well-formedness of a table state: at least one bucket, `Sz`
agreeing with the stored-entry count, every entry sitting in the bucket its
hash selects, and pairwise-distinct keys. -/
def WF (m : HashMap K V) : Prop :=
  0 < m.Table.length ∧
  m.Sz = (items m).length ∧
  (∀ i, i < m.Table.length → ∀ p ∈ m.Table.getD i [], m.HashFunction p.1 % m.Table.length = i) ∧
  ((items m).map Prod.fst).Nodup

instance (m : HashMap K V) : Decidable (WF m) := by
  unfold WF
  infer_instance

/-- The bucket counts the resize policy can actually produce, as a function of
how many grow steps are outstanding: `orbitF 0 = 1` and each grow multiplies
the entry count `10 * bc + 1` by `ResizeFactor`, giving `20 * bc + 2`. -/
def orbitF : Nat → Nat
  | 0 => 1
  | j + 1 => 20 * orbitF j + 2

/-- The reachable-state invariant: well-formed, load factor bounds (with the
one-bucket floor exception), and a bucket count on the grow/shrink orbit. -/
def Inv (m : HashMap K V) : Prop :=
  WF m ∧
  m.Sz ≤ m.Table.length * LoadFactor ∧
  (m.Table.length ≤ m.Sz * LoadFactor ∨ m.Table.length = 1) ∧
  (∃ j, j ≤ m.Table.length ∧ m.Table.length = orbitF j)

instance (m : HashMap K V) : Decidable (Inv m) := by
  unfold Inv
  infer_instance

/-- The table states reachable by the container's operations: construction
(empty, or the iterator-range / initializer-list constructors, which are
`insert` folds), `insert`, `erase`, `clear`; copy-assignment is a `clear`
followed by `insert`s and is therefore also covered. -/
inductive Reachable : HashMap K V → Prop where
  | base (h : K → Nat) : Reachable (mk0 h)
  | ins (t : HashMap K V) (kv : K × V) : Reachable t → Reachable (insert t kv)
  | del (t : HashMap K V) (k : K) : Reachable t → Reachable (erase t k)
  | clr (t : HashMap K V) : Reachable t → Reachable (clear t)

end HashMap

/-! ### Basic list-level helper lemmas -/

section ListHelpers

variable {α : Type}

theorem list_eq_take_getElem_drop (T : List α) (i : Nat) (h : i < T.length) :
    T = T.take i ++ T[i] :: T.drop (i + 1) := by
  conv_lhs => rw [← List.take_append_drop i T]
  rw [List.drop_eq_getElem_cons h]

theorem list_set_eq_take_cons_drop (T : List α) (i : Nat) (h : i < T.length) (a : α) :
    T.set i a = T.take i ++ a :: T.drop (i + 1) := by
  rw [List.set_eq_take_append_cons_drop, if_pos h]

theorem getD_of_le (l : List α) (d : α) {j : Nat} (h : l.length ≤ j) : l.getD j d = d := by
  rw [List.getD_eq_getElem?_getD, List.getElem?_eq_none h, Option.getD_none]

theorem append_cons_perm (A B C : List α) (x : α) :
    (A ++ (B ++ x :: C)).Perm (x :: (A ++ (B ++ C))) := by
  have h1 : A ++ (B ++ x :: C) = (A ++ B) ++ x :: C := by simp
  have h2 : x :: (A ++ (B ++ C)) = x :: ((A ++ B) ++ C) := by simp
  rw [h1, h2]
  exact List.perm_middle

end ListHelpers

namespace HashMap

variable {K V : Type} [DecidableEq K]

omit [DecidableEq K] in
theorem bucketAt_subset_items (m : HashMap K V) (i : Nat) {p : K × V}
    (hp : p ∈ bucketAt m i) : p ∈ items m := by
  unfold bucketAt at hp
  unfold items
  rw [List.mem_flatten]
  by_cases h : i < m.Table.length
  · exact ⟨m.Table[i], List.getElem_mem h, by rwa [List.getD_eq_getElem _ _ h] at hp⟩
  · rw [List.getD_eq_getElem?_getD, List.getElem?_eq_none (by omega), Option.getD_none] at hp
    exact absurd hp (List.not_mem_nil p)

omit [DecidableEq K] in
theorem items_mem_bucket {m : HashMap K V} (hwf : WF m) {p : K × V}
    (hp : p ∈ items m) : p ∈ bucketAt m (get_hash m p.1) := by
  obtain ⟨hlen, hsz, hbuck, hnd⟩ := hwf
  unfold items at hp
  rw [List.mem_flatten] at hp
  obtain ⟨b, hb, hpb⟩ := hp
  rw [List.mem_iff_getElem] at hb
  obtain ⟨i, hi, hbi⟩ := hb
  have hkey : m.HashFunction p.1 % m.Table.length = i := by
    refine hbuck i hi p ?_
    rw [List.getD_eq_getElem _ _ hi, hbi]
    exact hpb
  unfold bucketAt get_hash
  rw [hkey, List.getD_eq_getElem _ _ hi, hbi]
  exact hpb

/-! ### `findSlot` lemmas -/

theorem findSlot_eq_none_iff (k : K) (l : List (K × V)) :
    findSlot k l = none ↔ ∀ p ∈ l, p.1 ≠ k := by
  induction l with
  | nil => simp [findSlot]
  | cons p rest ih =>
    by_cases hp : p.1 = k
    · simp [findSlot, hp]
    · simp only [findSlot, if_neg hp, List.mem_cons, Option.map_eq_none', ih]
      constructor
      · rintro h q (rfl | hq)
        · exact hp
        · exact h q hq
      · intro h q hq
        exact h q (Or.inr hq)

theorem findSlot_some (k : K) (l : List (K × V)) (j : Nat)
    (h : findSlot k l = some j) :
    ∃ hj : j < l.length, l[j].1 = k ∧ ∀ d, l.getD j d = l[j] := by
  induction l generalizing j with
  | nil => simp [findSlot] at h
  | cons p rest ih =>
    unfold findSlot at h
    by_cases hp : p.1 = k
    · rw [if_pos hp] at h
      cases h
      exact ⟨by simp, hp, fun d => rfl⟩
    · rw [if_neg hp] at h
      cases hj : findSlot k rest with
      | none => rw [hj] at h; simp at h
      | some j0 =>
        rw [hj] at h
        simp only [Option.map_some'] at h
        cases h
        obtain ⟨hlt, hkey, hgd⟩ := ih j0 hj
        refine ⟨by simpa using Nat.succ_lt_succ hlt, ?_, ?_⟩
        · simpa using hkey
        · intro d
          simpa using hgd d

theorem findSlot_of_mem {k : K} {v : V} {l : List (K × V)} (h : (k, v) ∈ l) :
    findSlot k l ≠ none := by
  rw [Ne, findSlot_eq_none_iff]
  intro hall
  exact hall (k, v) h rfl

/-! ### `add` lemmas -/

omit [DecidableEq K] in
theorem add_HashFunction (m : HashMap K V) (kv : K × V) :
    (add m kv).HashFunction = m.HashFunction := rfl

omit [DecidableEq K] in
theorem add_length (m : HashMap K V) (kv : K × V) :
    (add m kv).Table.length = m.Table.length := by
  simp [add, List.length_set]

omit [DecidableEq K] in
theorem add_Sz (m : HashMap K V) (kv : K × V) : (add m kv).Sz = m.Sz + 1 := rfl

omit [DecidableEq K] in
theorem add_bucket_self {m : HashMap K V} {kv : K × V}
    (h : get_hash m kv.1 < m.Table.length) :
    bucketAt (add m kv) (get_hash m kv.1) = bucketAt m (get_hash m kv.1) ++ [kv] := by
  unfold add bucketAt
  simp only
  rw [List.getD_eq_getElem _ _ (by simpa [List.length_set] using h),
    List.getElem_set_self, List.getD_eq_getElem _ _ h]

omit [DecidableEq K] in
theorem add_bucket_other {m : HashMap K V} {kv : K × V} {j : Nat}
    (h : j ≠ get_hash m kv.1) :
    bucketAt (add m kv) j = bucketAt m j := by
  unfold add bucketAt
  simp only
  by_cases hj : j < m.Table.length
  · rw [List.getD_eq_getElem _ _ (by simpa [List.length_set] using hj),
      List.getElem_set_ne (fun he => h he.symm), List.getD_eq_getElem _ _ hj]
  · rw [getD_of_le _ _ (by simpa [List.length_set] using Nat.le_of_not_lt hj),
      getD_of_le _ _ (Nat.le_of_not_lt hj)]

omit [DecidableEq K] in
theorem add_items_perm {m : HashMap K V} {kv : K × V}
    (h : get_hash m kv.1 < m.Table.length) :
    (items (add m kv)).Perm (kv :: items m) := by
  unfold items add
  simp only
  rw [list_set_eq_take_cons_drop _ _ h,
    List.getD_eq_getElem _ _ h]
  conv_rhs => rw [list_eq_take_getElem_drop m.Table (get_hash m kv.1) h]
  simp only [List.flatten_append, List.flatten_cons, List.append_assoc, List.singleton_append]
  exact append_cons_perm _ _ _ _

omit [DecidableEq K] in
theorem add_items_eq_of_oob {m : HashMap K V} {kv : K × V}
    (h : m.Table.length ≤ get_hash m kv.1) :
    items (add m kv) = items m := by
  unfold items add
  simp only
  rw [List.set_eq_take_append_cons_drop, if_neg (Nat.not_lt.mpr h)]

/-! ### Folding `add` over a list of entries (the rehash loop of `resize`) -/

omit [DecidableEq K] in
theorem foldl_add_HashFunction (l : List (K × V)) (m0 : HashMap K V) :
    (l.foldl add m0).HashFunction = m0.HashFunction := by
  induction l generalizing m0 with
  | nil => rfl
  | cons x l ih => rw [List.foldl_cons, ih, add_HashFunction]

omit [DecidableEq K] in
theorem foldl_add_length (l : List (K × V)) (m0 : HashMap K V) :
    (l.foldl add m0).Table.length = m0.Table.length := by
  induction l generalizing m0 with
  | nil => rfl
  | cons x l ih => rw [List.foldl_cons, ih, add_length]

omit [DecidableEq K] in
theorem foldl_add_Sz (l : List (K × V)) (m0 : HashMap K V) :
    (l.foldl add m0).Sz = m0.Sz + l.length := by
  induction l generalizing m0 with
  | nil => rfl
  | cons x l ih =>
    rw [List.foldl_cons, ih, add_Sz, List.length_cons]
    omega

omit [DecidableEq K] in
theorem foldl_add_bucket (l : List (K × V)) :
    ∀ (m0 : HashMap K V), 0 < m0.Table.length → ∀ i, i < m0.Table.length →
      bucketAt (l.foldl add m0) i =
        bucketAt m0 i ++
          l.filter (fun p => decide (m0.HashFunction p.1 % m0.Table.length = i)) := by
  induction l with
  | nil => intro m0 _ i _; simp
  | cons x l ih =>
    intro m0 hlen i hi
    rw [List.foldl_cons]
    have hlen1 : 0 < (add m0 x).Table.length := by rwa [add_length]
    have hi1 : i < (add m0 x).Table.length := by rwa [add_length]
    rw [ih (add m0 x) hlen1 i hi1, add_HashFunction, add_length]
    by_cases hx : m0.HashFunction x.1 % m0.Table.length = i
    · have hsame : get_hash m0 x.1 = i := hx
      rw [List.filter_cons_of_pos (by simpa using hx), ← hsame,
        add_bucket_self (by rw [hsame]; exact hi)]
      simp
    · rw [List.filter_cons_of_neg (by simpa using hx),
        add_bucket_other (fun he => hx (by simpa [get_hash] using he.symm))]

omit [DecidableEq K] in
theorem foldl_add_items_subset (l : List (K × V)) (m0 : HashMap K V) {p : K × V}
    (hp : p ∈ items (l.foldl add m0)) : p ∈ items m0 ∨ p ∈ l := by
  induction l generalizing m0 with
  | nil => exact Or.inl hp
  | cons x l ih =>
    rw [List.foldl_cons] at hp
    rcases ih (add m0 x) hp with h1 | h1
    · by_cases hoob : get_hash m0 x.1 < m0.Table.length
      · have hmem := (add_items_perm hoob).mem_iff.mp h1
        rcases List.mem_cons.mp hmem with h2 | h2
        · exact Or.inr (by simp [h2])
        · exact Or.inl h2
      · rw [add_items_eq_of_oob (Nat.le_of_not_lt hoob)] at h1
        exact Or.inl h1
    · exact Or.inr (List.mem_cons_of_mem x h1)

end HashMap

/-! ### Partitioning a list into hash buckets is a permutation -/

section PartitionPerm

variable {α : Type}

theorem flatten_map_ite_cons (g : Nat → List α) (x : α) (j : Nat) :
    ∀ is : List Nat, is.Nodup → j ∈ is →
      ((is.map (fun i => if j = i then x :: g i else g i)).flatten).Perm
        (x :: (is.map g).flatten) := by
  intro is
  induction is with
  | nil => intro _ hj; exact absurd hj (List.not_mem_nil j)
  | cons a rest ih =>
    intro hnd hj
    rw [List.nodup_cons] at hnd
    by_cases hja : j = a
    · subst hja
      have hmap : rest.map (fun i => if j = i then x :: g i else g i) = rest.map g := by
        refine List.map_congr_left ?_
        intro i hi
        have hne : ¬ j = i := fun he => hnd.1 (by rw [he]; exact hi)
        rw [if_neg hne]
      simp [hmap]
    · have hjr : j ∈ rest := by
        rcases List.mem_cons.mp hj with h | h
        · exact absurd h hja
        · exact h
      simp only [List.map_cons, List.flatten_cons, if_neg hja]
      exact ((ih hnd.2 hjr).append_left (g a)).trans List.perm_middle

theorem flatten_filter_range_perm (l : List α) (f : α → Nat) (n : Nat)
    (hf : ∀ x ∈ l, f x < n) :
    (((List.range n).map (fun i => l.filter (fun x => decide (f x = i)))).flatten).Perm l := by
  induction l with
  | nil =>
    have hmap : (List.range n).map (fun i => ([] : List α).filter (fun x => decide (f x = i)))
        = (List.range n).map (fun _ => ([] : List α)) := by
      simp
    rw [hmap]
    have : ((List.range n).map (fun _ => ([] : List α))).flatten = [] := by
      rw [List.flatten_eq_nil_iff]
      intro b hb
      rcases List.mem_map.mp hb with ⟨i, _, he⟩
      exact he.symm
    rw [this]
  | cons x l ih =>
    have hfl : ∀ y ∈ l, f y < n := fun y hy => hf y (List.mem_cons_of_mem x hy)
    have hmap : (List.range n).map (fun i => (x :: l).filter (fun y => decide (f y = i)))
        = (List.range n).map
            (fun i => if f x = i then x :: l.filter (fun y => decide (f y = i))
                      else l.filter (fun y => decide (f y = i))) := by
      refine List.map_congr_left ?_
      intro i _
      by_cases hx : f x = i
      · rw [if_pos hx, List.filter_cons_of_pos (by simpa using hx)]
      · rw [if_neg hx, List.filter_cons_of_neg (by simpa using hx)]
    rw [hmap]
    have hperm := flatten_map_ite_cons (fun i => l.filter (fun y => decide (f y = i))) x (f x)
      (List.range n) (List.nodup_range n) (List.mem_range.mpr (hf x (List.mem_cons_self x l)))
    exact hperm.trans ((ih hfl).cons x)

end PartitionPerm

namespace HashMap

variable {K V : Type} [DecidableEq K]

/-! ### `resize` lemmas -/

omit [DecidableEq K] in
/-- The nested rehash loop of `resize` is the fold of `add` over all stored
items. -/
theorem resize_eq_foldl (m : HashMap K V) (n : Nat) :
    resize m n =
      (let m2 := (items m).foldl add
        { m with Sz := 0, Table := List.replicate n ([] : List (K × V)) }
       if m2.Table.length = 0 then { m2 with Table := [[]] } else m2) := by
  unfold resize items
  rw [List.foldl_flatten]

omit [DecidableEq K] in
theorem resize_HashFunction (m : HashMap K V) (n : Nat) :
    (resize m n).HashFunction = m.HashFunction := by
  rw [resize_eq_foldl]
  simp only
  split
  · exact foldl_add_HashFunction _ _
  · exact foldl_add_HashFunction _ _

omit [DecidableEq K] in
theorem resize_length (m : HashMap K V) {n : Nat} (hn : 0 < n) :
    (resize m n).Table.length = n := by
  rw [resize_eq_foldl]
  simp only
  rw [if_neg (by rw [foldl_add_length]; simp; omega)]
  rw [foldl_add_length]
  simp

omit [DecidableEq K] in
theorem resize_Sz (m : HashMap K V) {n : Nat} :
    (resize m n).Sz = (items m).length := by
  rw [resize_eq_foldl]
  simp only
  split
  · rw [foldl_add_Sz]; simp
  · rw [foldl_add_Sz]; simp

omit [DecidableEq K] in
theorem resize_bucket (m : HashMap K V) {n : Nat} (hn : 0 < n) (i : Nat) (hi : i < n) :
    bucketAt (resize m n) i =
      (items m).filter (fun p => decide (m.HashFunction p.1 % n = i)) := by
  rw [resize_eq_foldl]
  simp only
  rw [if_neg (by rw [foldl_add_length]; simp; omega)]
  have h := foldl_add_bucket (items m)
    { m with Sz := 0, Table := List.replicate n ([] : List (K × V)) }
    (by simp; omega) i (by simpa using hi)
  simp only [List.length_replicate] at h
  rw [h]
  have hrep : bucketAt { m with Sz := 0, Table := List.replicate n ([] : List (K × V)) } i
      = [] := by
    unfold bucketAt
    simp only
    rw [List.getD_eq_getElem _ _ (by simpa using hi), List.getElem_replicate]
  rw [hrep, List.nil_append]

omit [DecidableEq K] in
/-- After a resize to a positive bucket count, the bucket array is exactly the
hash-partition of the stored items. -/
theorem resize_table_eq (m : HashMap K V) {n : Nat} (hn : 0 < n) :
    (resize m n).Table =
      (List.range n).map (fun i => (items m).filter
        (fun p => decide (m.HashFunction p.1 % n = i))) := by
  refine List.ext_getElem (by rw [resize_length m hn]; simp) ?_
  intro i h1 h2
  have hi : i < n := by rwa [resize_length m hn] at h1
  have hb := resize_bucket m hn i hi
  unfold bucketAt at hb
  rw [List.getD_eq_getElem _ _ h1] at hb
  rw [hb, List.getElem_map, List.getElem_range]

omit [DecidableEq K] in
theorem resize_items_perm (m : HashMap K V) {n : Nat} (hn : 0 < n) :
    (items (resize m n)).Perm (items m) := by
  unfold items
  rw [resize_table_eq m hn]
  exact flatten_filter_range_perm (m.Table.flatten)
    (fun p => m.HashFunction p.1 % n) n
    (fun p _ => Nat.mod_lt _ hn)

omit [DecidableEq K] in
theorem resize_items_subset (m : HashMap K V) (n : Nat) {p : K × V}
    (hp : p ∈ items (resize m n)) : p ∈ items m := by
  rw [resize_eq_foldl] at hp
  simp only at hp
  have hsub : p ∈ items ((items m).foldl add
      { m with Sz := 0, Table := List.replicate n ([] : List (K × V)) }) → p ∈ items m := by
    intro h
    rcases foldl_add_items_subset _ _ h with h1 | h1
    · exfalso
      unfold items at h1
      simp only at h1
      rw [List.mem_flatten] at h1
      obtain ⟨b, hb, hpb⟩ := h1
      rw [List.eq_of_mem_replicate hb] at hpb
      exact List.not_mem_nil p hpb
    · exact h1
  split at hp
  · unfold items at hp
    simp only at hp
    rcases List.mem_flatten.mp hp with ⟨b, hb, hpb⟩
    rcases List.mem_singleton.mp hb with rfl
    exact absurd hpb (List.not_mem_nil p)
  · exact hsub hp

omit [DecidableEq K] in
theorem resize_zero (m : HashMap K V) (he : items m = []) :
    resize m 0 = { m with Sz := 0, Table := [[]] } := by
  rw [resize_eq_foldl]
  simp only [he, List.foldl_nil, List.replicate]
  rfl

omit [DecidableEq K] in
/-- `resize` to a positive bucket count preserves well-formedness of the entry
collection (and needs only key-nodup of the input). -/
theorem resize_WF (m : HashMap K V) {n : Nat} (hn : 0 < n)
    (hnd : ((items m).map Prod.fst).Nodup) : WF (resize m n) := by
  refine ⟨by rw [resize_length m hn]; omega, ?_, ?_, ?_⟩
  · rw [resize_Sz, (resize_items_perm m hn).length_eq]
  · intro i hi p hp
    rw [resize_length m hn] at hi
    have hb := resize_bucket m hn i hi
    unfold bucketAt at hb
    rw [hb] at hp
    have := List.of_mem_filter hp
    rw [resize_HashFunction, resize_length m hn]
    simpa using this
  · have hperm := (resize_items_perm m hn).map Prod.fst
    exact hperm.nodup_iff.mpr hnd

/-! ### Characterization of `find` on well-formed tables -/

omit [DecidableEq K] in
theorem pair_eta_of_key {p : K × V} {k : K} (h : p.1 = k) : (k, p.2) = p := by
  cases p
  cases h
  rfl

omit [DecidableEq K] in
theorem mem_keys_iff (l : List (K × V)) (k : K) :
    k ∈ l.map Prod.fst ↔ ∃ v, (k, v) ∈ l := by
  rw [List.mem_map]
  constructor
  · rintro ⟨p, hp, rfl⟩
    exact ⟨p.2, hp⟩
  · rintro ⟨v, hv⟩
    exact ⟨(k, v), hv, rfl⟩

omit [DecidableEq K] in
theorem items_eq_nil_of_Sz {m : HashMap K V} (hwf : WF m) (hsz : m.Sz = 0) :
    items m = [] := by
  exact List.eq_nil_of_length_eq_zero (by rw [← hwf.2.1]; exact hsz)

theorem findCur_end_iff {m : HashMap K V} (hwf : WF m) (k : K) :
    findCur m k = endCur m ↔ ∀ v, (k, v) ∉ items m := by
  unfold findCur
  by_cases hsz : m.Sz = 0
  · rw [if_pos hsz]
    simp [items_eq_nil_of_Sz hwf hsz]
  · rw [if_neg hsz]
    have hi0 : get_hash m k < m.Table.length := Nat.mod_lt _ hwf.1
    cases hslot : findSlot k (bucketAt m (get_hash m k)) with
    | some j =>
      simp only
      constructor
      · intro h
        exfalso
        have : get_hash m k = m.Table.length := congrArg Prod.fst h
        omega
      · intro h
        exfalso
        obtain ⟨hj, hkey, _⟩ := findSlot_some k _ j hslot
        have hmem : (bucketAt m (get_hash m k))[j] ∈ bucketAt m (get_hash m k) :=
          List.getElem_mem hj
        have hitems := bucketAt_subset_items m (get_hash m k) hmem
        refine h (bucketAt m (get_hash m k))[j].2 ?_
        rw [pair_eta_of_key hkey]
        exact hitems
    | none =>
      simp only [true_iff]
      intro v hv
      have hb := items_mem_bucket hwf hv
      have := (findSlot_eq_none_iff k (bucketAt m (get_hash m k))).mp hslot (k, v) hb
      exact this rfl

/-- On the `find`-hit path: the table is non-empty, the bucket scan succeeded,
and the returned cursor is `(get_hash k, j)`. -/
theorem findCur_hit {m : HashMap K V} {k : K} (h : findCur m k ≠ endCur m) :
    m.Sz ≠ 0 ∧ ∃ j, findSlot k (bucketAt m (get_hash m k)) = some j ∧
      findCur m k = (get_hash m k, j) := by
  by_cases hsz : m.Sz = 0
  · exact absurd (by unfold findCur; rw [if_pos hsz]) h
  · refine ⟨hsz, ?_⟩
    cases hslot : findSlot k (bucketAt m (get_hash m k)) with
    | some j =>
      refine ⟨j, rfl, ?_⟩
      unfold findCur
      rw [if_neg hsz]
      rw [hslot]
    | none =>
      exfalso
      apply h
      unfold findCur
      rw [if_neg hsz, hslot]

theorem findEntry_eq_some_iff [Inhabited K] [Inhabited V] {m : HashMap K V} (hwf : WF m)
    (k : K) (p : K × V) :
    findEntry m k = some p ↔ p ∈ items m ∧ p.1 = k := by
  unfold findEntry
  constructor
  · intro h
    by_cases hend : findCur m k = endCur m
    · rw [if_pos hend] at h
      exact absurd h (by simp)
    · rw [if_neg hend] at h
      obtain ⟨hsz, j, hslot, hcur⟩ := findCur_hit hend
      obtain ⟨hj, hkey, hgd⟩ := findSlot_some k _ j hslot
      have hderef : derefAt m.Table (findCur m k) = (bucketAt m (get_hash m k))[j] := by
        rw [hcur]
        unfold derefAt bucketAt
        exact hgd default
      rw [hderef] at h
      have hp : p = (bucketAt m (get_hash m k))[j] := (Option.some.injEq _ _).mp h.symm
      rw [hp]
      exact ⟨bucketAt_subset_items m _ (List.getElem_mem hj), hkey⟩
  · rintro ⟨hmem, hkey⟩
    have hne : findCur m k ≠ endCur m := by
      rw [Ne, findCur_end_iff hwf k]
      push_neg
      refine ⟨p.2, ?_⟩
      rw [pair_eta_of_key hkey]
      exact hmem
    rw [if_neg hne]
    obtain ⟨hsz, j, hslot, hcur⟩ := findCur_hit hne
    obtain ⟨hj, hkeyj, hgd⟩ := findSlot_some k _ j hslot
    have hderef : derefAt m.Table (findCur m k) = (bucketAt m (get_hash m k))[j] := by
      rw [hcur]
      unfold derefAt bucketAt
      exact hgd default
    rw [hderef]
    have hmemj : (bucketAt m (get_hash m k))[j] ∈ items m :=
      bucketAt_subset_items m _ (List.getElem_mem hj)
    have := List.inj_on_of_nodup_map hwf.2.2.2 hmemj hmem (by rw [hkeyj, hkey])
    rw [this]

theorem findVal_eq_some_iff [Inhabited K] [Inhabited V] {m : HashMap K V} (hwf : WF m)
    (k : K) (v : V) :
    findVal m k = some v ↔ (k, v) ∈ items m := by
  unfold findVal
  constructor
  · intro h
    rcases Option.map_eq_some'.mp h with ⟨p, hp, hv⟩
    obtain ⟨hmem, hkey⟩ := (findEntry_eq_some_iff hwf k p).mp hp
    have : (k, v) = p := by
      rw [← hkey, ← hv]
    rwa [this]
  · intro h
    rw [(findEntry_eq_some_iff hwf k (k, v)).mpr ⟨h, rfl⟩]
    rfl

theorem findVal_eq_none_iff [Inhabited K] [Inhabited V] {m : HashMap K V} (hwf : WF m)
    (k : K) :
    findVal m k = none ↔ ∀ v, (k, v) ∉ items m := by
  unfold findVal findEntry
  rw [← findCur_end_iff hwf k]
  by_cases hend : findCur m k = endCur m
  · simp [if_pos hend, hend]
  · simp [if_neg hend, hend]

/-! ### `del` lemmas -/

/-- `del` with its two `let` bindings inlined (definitional restatement, for
use with `split`). -/
theorem del_eq (m : HashMap K V) (k : K) :
    del m k =
      if ((bucketAt m (get_hash m k)).filter (fun p => decide (¬ p.1 = k))).length
          ≠ (bucketAt m (get_hash m k)).length then
        { m with
          Table := m.Table.set (get_hash m k)
            ((bucketAt m (get_hash m k)).filter (fun p => decide (¬ p.1 = k))),
          Sz := m.Sz - 1 }
      else m := rfl

theorem del_length (m : HashMap K V) (k : K) :
    (del m k).Table.length = m.Table.length := by
  rw [del_eq]
  split
  · simp [List.length_set]
  · rfl

theorem del_HashFunction (m : HashMap K V) (k : K) :
    (del m k).HashFunction = m.HashFunction := by
  rw [del_eq]
  split
  · rfl
  · rfl

/-- In a list with pairwise-distinct keys, filtering key `k` out removes at
most one entry. -/
theorem filter_ne_length_ge (k : K) (l : List (K × V)) (hnd : (l.map Prod.fst).Nodup) :
    l.length ≤ (l.filter (fun p => decide (¬ p.1 = k))).length + 1 := by
  induction l with
  | nil => simp
  | cons p rest ih =>
    rw [List.map_cons, List.nodup_cons] at hnd
    by_cases hp : p.1 = k
    · rw [List.filter_cons_of_neg (by simpa using hp)]
      have hrest : rest.filter (fun q => decide (¬ q.1 = k)) = rest := by
        rw [List.filter_eq_self]
        intro q hq
        simp only [decide_eq_true_eq]
        intro hqk
        exact hnd.1 (by rw [hp, ← hqk]; exact List.mem_map_of_mem Prod.fst hq)
      rw [hrest]
      simp
    · rw [List.filter_cons_of_pos (by simpa using hp)]
      simpa using ih hnd.2

theorem del_no_key {m : HashMap K V} (hwf : WF m) (k : K) :
    ∀ v, (k, v) ∉ items (del m k) := by
  intro v hv
  have hi0 : get_hash m k < m.Table.length := Nat.mod_lt _ hwf.1
  rw [del_eq] at hv
  split at hv
  · simp only [items] at hv
    rcases List.mem_flatten.mp hv with ⟨b, hb, hpb⟩
    rcases List.mem_iff_getElem.mp hb with ⟨j, hj, hbj⟩
    rw [List.length_set] at hj
    by_cases hji : j = get_hash m k
    · subst hji
      rw [List.getElem_set_self] at hbj
      rw [← hbj] at hpb
      have := List.of_mem_filter hpb
      simp at this
    · rw [List.getElem_set_ne (fun he => hji he.symm)] at hbj
      have hmem : (k, v) ∈ bucketAt m j := by
        unfold bucketAt
        rw [List.getD_eq_getElem _ _ hj, hbj]
        exact hpb
      have := hwf.2.2.1 j hj (k, v) hmem
      exact hji (by rw [← this]; rfl)
  · rename_i hlen
    rw [Ne, not_not] at hlen
    have hall : ∀ p ∈ bucketAt m (get_hash m k), ¬ p.1 = k := by
      by_contra hcon
      push_neg at hcon
      obtain ⟨p, hp, hpk⟩ := hcon
      have : ((bucketAt m (get_hash m k)).filter (fun q => decide (¬ q.1 = k))).length
          < (bucketAt m (get_hash m k)).length := by
        rw [List.length_filter_lt_length_iff_exists]
        exact ⟨p, hp, by simpa using hpk⟩
      omega
    have hb := items_mem_bucket hwf hv
    exact hall (k, v) hb rfl

theorem del_preserves {m : HashMap K V} (k : K) {p : K × V}
    (hne : p.1 ≠ k) (hp : p ∈ items m) : p ∈ items (del m k) := by
  rw [del_eq]
  split
  · simp only [items] at hp ⊢
    rcases List.mem_flatten.mp hp with ⟨b, hb, hpb⟩
    rcases List.mem_iff_getElem.mp hb with ⟨j, hj, hbj⟩
    rw [List.mem_flatten]
    by_cases hji : j = get_hash m k
    · subst hji
      refine ⟨(bucketAt m (get_hash m k)).filter (fun q => decide (¬ q.1 = k)), ?_, ?_⟩
      · rw [List.mem_iff_getElem]
        refine ⟨get_hash m k, ?_, ?_⟩
        · rw [List.length_set]
          omega
        · rw [List.getElem_set_self]
      · rw [List.mem_filter]
        refine ⟨?_, by simpa using hne⟩
        unfold bucketAt
        rw [List.getD_eq_getElem _ _ hj, hbj]
        exact hpb
    · refine ⟨b, ?_, hpb⟩
      rw [List.mem_iff_getElem]
      refine ⟨j, by rw [List.length_set]; omega, ?_⟩
      rw [List.getElem_set_ne (fun he => hji he.symm), hbj]
  · exact hp

omit [DecidableEq K] in
/-- The bucket selected by a key is a sublist of the item list. -/
theorem bucketAt_sublist (m : HashMap K V) {i : Nat} (hi : i < m.Table.length) :
    (bucketAt m i).Sublist (items m) := by
  unfold bucketAt items
  rw [List.getD_eq_getElem _ _ hi]
  conv_rhs => rw [list_eq_take_getElem_drop m.Table i hi]
  rw [List.flatten_append, List.flatten_cons]
  exact (List.sublist_append_left _ _).trans (List.sublist_append_right _ _)

theorem del_WF {m : HashMap K V} (hwf : WF m) (k : K) : WF (del m k) := by
  have hi0 : get_hash m k < m.Table.length := Nat.mod_lt _ hwf.1
  have hbsub := bucketAt_sublist m hi0
  have hnodupb : ((bucketAt m (get_hash m k)).map Prod.fst).Nodup :=
    (hbsub.map Prod.fst).nodup hwf.2.2.2
  rw [del_eq]
  split
  · rename_i hlen
    have hfle := List.length_filter_le
      (fun p => decide (¬ p.1 = k)) (bucketAt m (get_hash m k))
    have hfge := filter_ne_length_ge k (bucketAt m (get_hash m k)) hnodupb
    have hnb : ((bucketAt m (get_hash m k)).filter
        (fun p => decide (¬ p.1 = k))).length + 1 = (bucketAt m (get_hash m k)).length := by
      omega
    have hitems : items m = (m.Table.take (get_hash m k)).flatten ++
        (bucketAt m (get_hash m k) ++ (m.Table.drop (get_hash m k + 1)).flatten) := by
      unfold items bucketAt
      conv_lhs => rw [list_eq_take_getElem_drop m.Table (get_hash m k) hi0]
      rw [List.flatten_append, List.flatten_cons, List.getD_eq_getElem _ _ hi0]
    have hitems2 : items { m with
        Table := m.Table.set (get_hash m k)
          ((bucketAt m (get_hash m k)).filter (fun p => decide (¬ p.1 = k))),
        Sz := m.Sz - 1 } =
        (m.Table.take (get_hash m k)).flatten ++
          ((bucketAt m (get_hash m k)).filter (fun p => decide (¬ p.1 = k)) ++
            (m.Table.drop (get_hash m k + 1)).flatten) := by
      unfold items
      simp only
      rw [list_set_eq_take_cons_drop _ _ hi0, List.flatten_append, List.flatten_cons]
    refine ⟨?_, ?_, ?_, ?_⟩
    · simpa [List.length_set] using hwf.1
    · have hsz := hwf.2.1
      rw [hitems] at hsz
      rw [hitems2]
      simp only [List.length_append] at hsz ⊢
      omega
    · intro j hj p hp
      simp only [List.length_set] at hj
      simp only
      rw [List.length_set]
      by_cases hji : j = get_hash m k
      · subst hji
        rw [List.getD_eq_getElem _ _ (by rwa [List.length_set]),
          List.getElem_set_self] at hp
        have hpb : p ∈ bucketAt m (get_hash m k) := (List.mem_filter.mp hp).1
        exact hwf.2.2.1 (get_hash m k) hj p hpb
      · rw [List.getD_eq_getElem _ _ (by rwa [List.length_set]),
          List.getElem_set_ne (fun he => hji he.symm)] at hp
        refine hwf.2.2.1 j hj p ?_
        show p ∈ m.Table.getD j []
        rwa [List.getD_eq_getElem _ _ hj]
    · have hsubl : (items { m with
          Table := m.Table.set (get_hash m k)
            ((bucketAt m (get_hash m k)).filter (fun p => decide (¬ p.1 = k))),
          Sz := m.Sz - 1 }).Sublist (items m) := by
        rw [hitems, hitems2]
        refine List.Sublist.append_left ?_ _
        exact List.Sublist.append_right (List.filter_sublist _) _
      exact ((hsubl.map Prod.fst).nodup hwf.2.2.2)
  · exact hwf

theorem del_Sz_cases {m : HashMap K V} (hwf : WF m) (k : K) :
    del m k = m ∨ (del m k).Sz + 1 = m.Sz := by
  rw [del_eq]
  split
  · rename_i hlen
    right
    simp only
    have hi0 : get_hash m k < m.Table.length := Nat.mod_lt _ hwf.1
    have hfle := List.length_filter_le
      (fun p => decide (¬ p.1 = k)) (bucketAt m (get_hash m k))
    have hble : (bucketAt m (get_hash m k)).length ≤ (items m).length :=
      (bucketAt_sublist m hi0).length_le
    have hsz := hwf.2.1
    omega
  · left; rfl

/-! ### `orbitF` facts and the structure-level restatements of `insert`/`erase` -/

theorem orbitF_pos (j : Nat) : 0 < orbitF j := by
  cases j with
  | zero => simp [orbitF]
  | succ j0 => simp only [orbitF]; omega

theorem orbitF_gt (j : Nat) : j < orbitF j := by
  induction j with
  | zero => simp [orbitF]
  | succ j0 ih => simp only [orbitF]; omega

theorem orbitF_one_or_ge (j : Nat) : orbitF j = 1 ∨ 22 ≤ orbitF j := by
  cases j with
  | zero => left; rfl
  | succ j0 =>
    right
    have := orbitF_pos j0
    simp only [orbitF]
    omega

omit [DecidableEq K] in
theorem is_dense_iff (m : HashMap K V) :
    is_dense m = true ↔ m.Table.length * LoadFactor < m.Sz := by
  simp [is_dense]

omit [DecidableEq K] in
theorem is_sparse_iff (m : HashMap K V) :
    is_sparse m = true ↔ m.Sz * LoadFactor < m.Table.length := by
  simp [is_sparse]

/-- `insert` with its `let` binding inlined (definitional restatement, for use
with `split`). -/
theorem insert_eq (m : HashMap K V) (kv : K × V) :
    insert m kv =
      if findCur m kv.1 ≠ endCur m then m
      else
        if is_dense (add m kv) then resize (add m kv) ((add m kv).Sz * ResizeFactor)
        else if is_sparse (add m kv) then resize (add m kv) ((add m kv).Sz / ResizeFactor)
        else add m kv := rfl

/-- `erase` with its `let` binding inlined (definitional restatement, for use
with `split`). -/
theorem erase_eq (m : HashMap K V) (k : K) :
    erase m k =
      if is_dense (del m k) then resize (del m k) ((del m k).Sz * ResizeFactor)
      else if is_sparse (del m k) then resize (del m k) ((del m k).Sz / ResizeFactor)
      else del m k := rfl

/-! ### Well-formedness and invariant preservation -/

theorem add_WF {m : HashMap K V} {kv : K × V} (hwf : WF m)
    (habs : findCur m kv.1 = endCur m) : WF (add m kv) := by
  have hi0 : get_hash m kv.1 < m.Table.length := Nat.mod_lt _ hwf.1
  have hperm := @add_items_perm K V m kv hi0
  have hknotin : kv.1 ∉ (items m).map Prod.fst := by
    rw [mem_keys_iff]
    rintro ⟨v, hv⟩
    exact (findCur_end_iff hwf kv.1).mp habs v hv
  refine ⟨?_, ?_, ?_, ?_⟩
  · rw [add_length]; exact hwf.1
  · rw [add_Sz, hperm.length_eq, List.length_cons, hwf.2.1]
  · intro i hi p hp
    rw [add_length] at hi
    rw [add_HashFunction, add_length]
    have hp2 : p ∈ bucketAt (add m kv) i := hp
    by_cases hii : i = get_hash m kv.1
    · subst hii
      rw [add_bucket_self hi0] at hp2
      rcases List.mem_append.mp hp2 with hmem | hmem
      · exact hwf.2.2.1 _ hi0 p hmem
      · rcases List.mem_singleton.mp hmem with rfl
        rfl
    · rw [add_bucket_other hii] at hp2
      exact hwf.2.2.1 i hi p hp2
  · have hmap := hperm.map Prod.fst
    rw [List.map_cons] at hmap
    exact hmap.nodup_iff.mpr (List.nodup_cons.mpr ⟨hknotin, hwf.2.2.2⟩)

/-- One `insert` preserves the reachable-state invariant. -/
theorem insert_Inv {m : HashMap K V} (hinv : Inv m) (kv : K × V) : Inv (insert m kv) := by
  obtain ⟨hwf, hup, hlow, j, hjle, hj⟩ := hinv
  rw [insert_eq]
  by_cases hfind : findCur m kv.1 ≠ endCur m
  · rw [if_pos hfind]
    exact ⟨hwf, hup, hlow, j, hjle, hj⟩
  · rw [if_neg hfind]
    push_neg at hfind
    have hwf1 : WF (add m kv) := add_WF hwf hfind
    have hsz1 : (add m kv).Sz = m.Sz + 1 := add_Sz m kv
    have hlen1 : (add m kv).Table.length = m.Table.length := add_length m kv
    split
    · -- grow branch
      rename_i hdense
      rw [is_dense_iff, hsz1, hlen1] at hdense
      have hszeq : m.Sz = m.Table.length * LoadFactor := by
        unfold LoadFactor at *
        omega
      have hn : 0 < (add m kv).Sz * ResizeFactor := by
        rw [hsz1]
        unfold ResizeFactor
        omega
      have hrwf : WF (resize (add m kv) ((add m kv).Sz * ResizeFactor)) :=
        resize_WF _ hn hwf1.2.2.2
      have hrsz : (resize (add m kv) ((add m kv).Sz * ResizeFactor)).Sz = (add m kv).Sz := by
        rw [resize_Sz, ← hwf1.2.1]
      have hrlen := resize_length (add m kv) hn
      refine ⟨hrwf, ?_, ?_, j + 1, ?_, ?_⟩
      · rw [hrsz, hrlen, hsz1, hszeq]
        unfold LoadFactor ResizeFactor
        omega
      · left
        rw [hrsz, hrlen]
        unfold LoadFactor ResizeFactor
        omega
      · rw [hrlen, hsz1, hszeq, hj]
        have := orbitF_gt j
        unfold LoadFactor ResizeFactor at *
        omega
      · rw [hrlen, hsz1, hszeq, hj]
        simp only [orbitF]
        unfold LoadFactor ResizeFactor
        omega
    · split
      · -- shrink branch: impossible right after an add, given the invariant
        rename_i hnotdense hsparse
        rw [is_sparse_iff, hsz1, hlen1] at hsparse
        exfalso
        unfold LoadFactor at *
        rcases hlow with hl | hl
        · omega
        · omega
      · -- no resize
        rename_i hnotdense hnotsparse
        rw [is_dense_iff, hsz1, hlen1] at hnotdense
        rw [is_sparse_iff, hsz1, hlen1] at hnotsparse
        refine ⟨hwf1, ?_, ?_, j, ?_, ?_⟩
        · rw [hsz1, hlen1]
          omega
        · left
          rw [hsz1, hlen1]
          omega
        · rwa [hlen1]
        · rwa [hlen1]

/-- One `erase` preserves the reachable-state invariant. -/
theorem erase_Inv {m : HashMap K V} (hinv : Inv m) (k : K) : Inv (erase m k) := by
  obtain ⟨hwf, hup, hlow, j, hjle, hj⟩ := hinv
  rw [erase_eq]
  have hwf1 : WF (del m k) := del_WF hwf k
  have hlen1 : (del m k).Table.length = m.Table.length := del_length m k
  have hszc := del_Sz_cases hwf k
  have hszle : (del m k).Sz ≤ m.Sz := by
    rcases hszc with he | he
    · rw [he]
    · omega
  split
  · -- grow branch: impossible after a del, given the upper bound
    rename_i hdense
    rw [is_dense_iff, hlen1] at hdense
    exfalso
    omega
  · split
    · -- shrink branch
      rename_i hnotdense hsparse
      rw [is_sparse_iff, hlen1] at hsparse
      by_cases hzero : (del m k).Sz = 0
      · -- becomes empty: resize(0) rebuilds the one-bucket empty table
        have hitems0 : items (del m k) = [] := items_eq_nil_of_Sz hwf1 hzero
        have hres : resize (del m k) ((del m k).Sz / ResizeFactor) =
            { del m k with Sz := 0, Table := [[]] } := by
          rw [hzero]
          exact resize_zero (del m k) hitems0
        rw [hres]
        refine ⟨⟨by simp, by simp [items], ?_, by simp [items]⟩, ?_, ?_, 0, ?_, ?_⟩
        · intro i hi p hp
          simp only [List.length_singleton] at hi
          have hz : i = 0 := Nat.lt_one_iff.mp hi
          subst hz
          simp at hp
        · simp [LoadFactor]
        · right; rfl
        · simp
        · rfl
      · -- the table still holds entries: the orbit invariant pins the new count
        rcases hszc with he | he
        · -- del was a no-op: sparse contradicts the lower bound
          exfalso
          rw [he] at hsparse
          rcases hlow with hl | hl
          · omega
          · rw [hl] at hsparse
            unfold LoadFactor at hsparse
            omega
        · -- one entry was removed
          cases j with
          | zero =>
            exfalso
            rw [hj] at hsparse
            simp only [orbitF] at hsparse
            unfold LoadFactor at hsparse
            omega
          | succ j0 =>
            have hq := orbitF_pos j0
            have hlen22 : m.Table.length = 20 * orbitF j0 + 2 := by
              rw [hj]
              simp [orbitF]
            have hlowle : m.Table.length ≤ m.Sz * LoadFactor := by
              rcases hlow with hl | hl
              · exact hl
              · rw [hl] at hlen22
                omega
            have hsz2q : (del m k).Sz = 2 * orbitF j0 := by
              unfold LoadFactor at *
              omega
            have hn : (del m k).Sz / ResizeFactor = orbitF j0 := by
              rw [hsz2q]
              unfold ResizeFactor
              omega
            rw [hn]
            have hq0 : 0 < orbitF j0 := hq
            have hrwf : WF (resize (del m k) (orbitF j0)) :=
              resize_WF _ hq0 hwf1.2.2.2
            have hrsz : (resize (del m k) (orbitF j0)).Sz = (del m k).Sz := by
              rw [resize_Sz, ← hwf1.2.1]
            have hrlen := resize_length (del m k) hq0
            refine ⟨hrwf, ?_, ?_, j0, ?_, ?_⟩
            · rw [hrsz, hrlen, hsz2q]
              unfold LoadFactor
              omega
            · left
              rw [hrsz, hrlen, hsz2q]
              unfold LoadFactor
              omega
            · rw [hrlen]
              have := orbitF_gt j0
              omega
            · rw [hrlen]
    · -- no resize
      rename_i hnotdense hnotsparse
      rw [is_dense_iff, hlen1] at hnotdense
      rw [is_sparse_iff, hlen1] at hnotsparse
      refine ⟨hwf1, ?_, ?_, j, ?_, ?_⟩
      · rw [hlen1]
        omega
      · left
        rw [hlen1]
        omega
      · rwa [hlen1]
      · rwa [hlen1]

omit [DecidableEq K] in
theorem mk0_Inv (h : K → Nat) : Inv (mk0 h : HashMap K V) := by
  refine ⟨⟨by simp [mk0], by simp [mk0, items], ?_, by simp [mk0, items]⟩, ?_, ?_, 0, ?_, ?_⟩
  · intro i hi p hp
    simp only [mk0] at hi hp
    simp at hi
    subst hi
    simp at hp
  · simp [mk0, LoadFactor]
  · right; rfl
  · simp [mk0]
  · rfl

omit [DecidableEq K] in
theorem clear_Inv (m : HashMap K V) : Inv (clear m) := by
  refine ⟨⟨by simp [clear], by simp [clear, items], ?_, by simp [clear, items]⟩, ?_, ?_, 0, ?_, ?_⟩
  · intro i hi p hp
    simp only [clear] at hi hp
    simp at hi
    subst hi
    simp at hp
  · simp [clear, LoadFactor]
  · right; rfl
  · simp [clear]
  · rfl

/-- Every reachable table state satisfies the invariant. -/
theorem reachable_inv {m : HashMap K V} (hr : Reachable m) : Inv m := by
  induction hr with
  | base h => exact mk0_Inv h
  | ins t kv _ ih => exact insert_Inv ih kv
  | del t k _ ih => exact erase_Inv ih k
  | clr t _ _ => exact clear_Inv t

/-! ### Effect of `insert` and `erase` on the stored entries -/

theorem insert_hit_eq {m : HashMap K V} {kv : K × V}
    (h : findCur m kv.1 ≠ endCur m) : insert m kv = m := by
  rw [insert_eq, if_pos h]

theorem insert_items_perm {m : HashMap K V} {kv : K × V} (hinv : Inv m)
    (habs : findCur m kv.1 = endCur m) :
    (items (insert m kv)).Perm (kv :: items m) := by
  obtain ⟨hwf, hup, hlow, j, hjle, hj⟩ := hinv
  have hi0 : get_hash m kv.1 < m.Table.length := Nat.mod_lt _ hwf.1
  have hperm1 := @add_items_perm K V m kv hi0
  have hsz1 : (add m kv).Sz = m.Sz + 1 := add_Sz m kv
  have hlen1 : (add m kv).Table.length = m.Table.length := add_length m kv
  rw [insert_eq, if_neg (by simpa using habs)]
  split
  · rename_i hdense
    have hn : 0 < (add m kv).Sz * ResizeFactor := by
      rw [hsz1]
      unfold ResizeFactor
      omega
    exact (resize_items_perm _ hn).trans hperm1
  · split
    · rename_i hnotdense hsparse
      rw [is_sparse_iff, hsz1, hlen1] at hsparse
      exfalso
      unfold LoadFactor at *
      rcases hlow with hl | hl
      · omega
      · omega
    · exact hperm1

theorem insert_Sz_absent {m : HashMap K V} {kv : K × V} (hinv : Inv m)
    (habs : findCur m kv.1 = endCur m) :
    (insert m kv).Sz = m.Sz + 1 := by
  have hwf1 : WF (insert m kv) := (insert_Inv hinv kv).1
  have hperm := insert_items_perm hinv habs
  rw [hwf1.2.1, hperm.length_eq, List.length_cons, hinv.1.2.1]

/-- Inserting a fresh key makes it findable, with exactly the inserted pair. -/
theorem findVal_insert_self [Inhabited K] [Inhabited V] {m : HashMap K V} {kv : K × V}
    (hinv : Inv m) (habs : findCur m kv.1 = endCur m) :
    findVal (insert m kv) kv.1 = some kv.2 := by
  have hwf1 : WF (insert m kv) := (insert_Inv hinv kv).1
  rw [findVal_eq_some_iff hwf1]
  have : kv ∈ items (insert m kv) ↔ kv ∈ kv :: items m := (insert_items_perm hinv habs).mem_iff
  exact this.mpr (List.mem_cons_self kv _)

/-- An entry for a different key (or the same key when already present) is
untouched by `insert`. -/
theorem findVal_insert_of_found [Inhabited K] [Inhabited V] {m : HashMap K V}
    {k : K} {v : V} (hinv : Inv m) (hv : findVal m k = some v) (kv : K × V) :
    findVal (insert m kv) k = some v := by
  by_cases hfind : findCur m kv.1 ≠ endCur m
  · rw [insert_hit_eq hfind]
    exact hv
  · push_neg at hfind
    have hwf1 : WF (insert m kv) := (insert_Inv hinv kv).1
    rw [findVal_eq_some_iff hwf1]
    have hmem := (findVal_eq_some_iff hinv.1 k v).mp hv
    exact ((insert_items_perm hinv hfind).mem_iff).mpr (List.mem_cons_of_mem kv hmem)

/-- A key absent before an `insert` of a different key stays absent. -/
theorem findVal_insert_of_none [Inhabited K] [Inhabited V] {m : HashMap K V}
    {k : K} {kv : K × V} (hinv : Inv m) (hnone : findVal m k = none)
    (hne : kv.1 ≠ k) : findVal (insert m kv) k = none := by
  by_cases hfind : findCur m kv.1 ≠ endCur m
  · rw [insert_hit_eq hfind]
    exact hnone
  · push_neg at hfind
    have hwf1 : WF (insert m kv) := (insert_Inv hinv kv).1
    rw [findVal_eq_none_iff hwf1]
    intro v hv
    have := ((insert_items_perm hinv hfind).mem_iff).mp hv
    rcases List.mem_cons.mp this with heq | hmem
    · exact hne (congrArg Prod.fst heq.symm)
    · exact (findVal_eq_none_iff hinv.1 k).mp hnone v hmem

theorem find_end_of_not_mem (m : HashMap K V) {k : K}
    (hk : ∀ v, (k, v) ∉ items m) : findCur m k = endCur m := by
  unfold findCur
  by_cases hsz : m.Sz = 0
  · rw [if_pos hsz]
  · rw [if_neg hsz]
    cases hslot : findSlot k (bucketAt m (get_hash m k)) with
    | some j =>
      exfalso
      obtain ⟨hj, hkey, _⟩ := findSlot_some k _ j hslot
      have hmem : (bucketAt m (get_hash m k))[j] ∈ items m :=
        bucketAt_subset_items m _ (List.getElem_mem hj)
      refine hk (bucketAt m (get_hash m k))[j].2 ?_
      rw [pair_eta_of_key hkey]
      exact hmem
    | none => rfl

theorem erase_no_key {m : HashMap K V} (hwf : WF m) (k : K) :
    ∀ v, (k, v) ∉ items (erase m k) := by
  intro v hv
  have hdel := del_no_key hwf k
  rw [erase_eq] at hv
  split at hv
  · exact hdel v (resize_items_subset _ _ hv)
  · split at hv
    · exact hdel v (resize_items_subset _ _ hv)
    · exact hdel v hv

/-- After `erase(k)`, `find(k)` is the end cursor (round-trip erase part). -/
theorem findCur_erase_self {m : HashMap K V} (hwf : WF m) (k : K) :
    findCur (erase m k) k = endCur (erase m k) :=
  find_end_of_not_mem _ (erase_no_key hwf k)

theorem erase_items_perm {m : HashMap K V} (hinv : Inv m) (k : K) :
    (items (erase m k)).Perm (items (del m k)) := by
  obtain ⟨hwf, hup, hlow, j, hjle, hj⟩ := hinv
  have hwf1 : WF (del m k) := del_WF hwf k
  have hlen1 : (del m k).Table.length = m.Table.length := del_length m k
  have hszc := del_Sz_cases hwf k
  have hszle : (del m k).Sz ≤ m.Sz := by
    rcases hszc with he | he
    · rw [he]
    · omega
  rw [erase_eq]
  split
  · rename_i hdense
    rw [is_dense_iff, hlen1] at hdense
    exfalso
    omega
  · split
    · rename_i hnotdense hsparse
      rw [is_sparse_iff, hlen1] at hsparse
      by_cases hzero : (del m k).Sz = 0
      · have hitems0 : items (del m k) = [] := items_eq_nil_of_Sz hwf1 hzero
        have h0 : (del m k).Sz / ResizeFactor = 0 := by rw [hzero, Nat.zero_div]
        rw [h0, resize_zero (del m k) hitems0, hitems0]
        simp [items]
      · rcases hszc with he | he
        · exfalso
          rw [he] at hsparse
          rcases hlow with hl | hl
          · omega
          · rw [hl] at hsparse
            unfold LoadFactor at hsparse
            omega
        · cases j with
          | zero =>
            exfalso
            rw [hj] at hsparse
            simp only [orbitF] at hsparse
            unfold LoadFactor at hsparse
            omega
          | succ j0 =>
            have hq := orbitF_pos j0
            have hn : 0 < (del m k).Sz / ResizeFactor := by
              have hlen22 : m.Table.length = 20 * orbitF j0 + 2 := by
                rw [hj]
                simp [orbitF]
              have hlowle : m.Table.length ≤ m.Sz * LoadFactor := by
                rcases hlow with hl | hl
                · exact hl
                · rw [hl] at hlen22
                  omega
              unfold LoadFactor ResizeFactor at *
              omega
            exact resize_items_perm _ hn
    · exact List.Perm.refl _

/-- An entry whose key differs from the erased key survives `erase` with its
value intact. -/
theorem findVal_erase_of_ne [Inhabited K] [Inhabited V] {m : HashMap K V}
    {k k2 : K} {v : V} (hinv : Inv m) (hv : findVal m k = some v)
    (hne : k2 ≠ k) : findVal (erase m k2) k = some v := by
  have hwf1 : WF (erase m k2) := (erase_Inv hinv k2).1
  rw [findVal_eq_some_iff hwf1]
  have hmem := (findVal_eq_some_iff hinv.1 k v).mp hv
  have hmemdel : (k, v) ∈ items (del m k2) :=
    del_preserves k2 (by simpa using fun he => hne he.symm) hmem
  exact ((erase_items_perm hinv k2).mem_iff).mpr hmemdel

/-! ### Persistence across operation sequences -/

theorem applyOp_Inv {m : HashMap K V} (hinv : Inv m) (o : Op K V) :
    Inv (applyOp m o) := by
  cases o with
  | ins kv => exact insert_Inv hinv kv
  | del k => exact erase_Inv hinv k

theorem findVal_applyOps [Inhabited K] [Inhabited V] {k : K} {v : V}
    (ops : List (Op K V)) :
    ∀ m : HashMap K V, Inv m → findVal m k = some v →
      (∀ o ∈ ops, o ≠ Op.del k) → findVal (applyOps m ops) k = some v := by
  induction ops with
  | nil => intro m _ hv _; exact hv
  | cons o ops ih =>
    intro m hinv hv hno
    have h1 : findVal (applyOp m o) k = some v := by
      cases o with
      | ins kv => exact findVal_insert_of_found hinv hv kv
      | del k2 =>
        refine findVal_erase_of_ne hinv hv ?_
        intro he
        exact hno (Op.del k2) (List.mem_cons_self _ _) (by rw [he])
    exact ih (applyOp m o) (applyOp_Inv hinv o) h1
      (fun o2 ho2 => hno o2 (List.mem_cons_of_mem o ho2))

/-! ### Folding `insert` over a pair list (constructors and copy-assignment) -/

theorem findVal_none_iff_end [Inhabited K] [Inhabited V] (m : HashMap K V) (k : K) :
    findVal m k = none ↔ findCur m k = endCur m := by
  unfold findVal findEntry
  by_cases h : findCur m k = endCur m
  · simp [if_pos h, h]
  · simp [if_neg h, h]

/-- First-write-wins over a fold of `insert`s: a key already present keeps its
value; an absent key gets the value of its first occurrence in the list. -/
theorem findVal_foldl_insert [Inhabited K] [Inhabited V] {k : K} (l : List (K × V)) :
    ∀ m : HashMap K V, Inv m →
      findVal (l.foldl insert m) k =
        match findVal m k with
        | some v => some v
        | none => ((l.find? (fun p => decide (p.1 = k))).map Prod.snd) := by
  induction l with
  | nil =>
    intro m _
    cases h : findVal m k with
    | some v => simp [h]
    | none => simp [h]
  | cons p l ih =>
    intro m hinv
    rw [List.foldl_cons]
    have hinv1 : Inv (insert m p) := insert_Inv hinv p
    rw [ih (insert m p) hinv1]
    cases h : findVal m k with
    | some v =>
      rw [findVal_insert_of_found hinv h p]
    | none =>
      by_cases hpk : p.1 = k
      · have habs : findCur m p.1 = endCur m := by
          rw [← findVal_none_iff_end]
          rw [hpk]
          exact h
        have hself := findVal_insert_self hinv habs
        rw [hpk] at hself
        rw [hself]
        rw [List.find?_cons_of_pos _ (by simpa using hpk)]
        rfl
      · rw [findVal_insert_of_none hinv h hpk]
        rw [List.find?_cons_of_neg _ (by simpa using hpk)]

theorem findVal_mk0 [Inhabited K] [Inhabited V] (h : K → Nat) (k : K) :
    findVal (mk0 h : HashMap K V) k = none := by
  rw [findVal_none_iff_end]
  unfold findCur mk0
  rw [if_pos rfl]

theorem findVal_clear [Inhabited K] [Inhabited V] (m : HashMap K V) (k : K) :
    findVal (clear m) k = none := by
  rw [findVal_none_iff_end]
  unfold findCur clear
  rw [if_pos rfl]

/-- The table built from a pair list resolves each key to its first occurrence
in the list. -/
theorem findVal_fromList [Inhabited K] [Inhabited V] (h : K → Nat)
    (l : List (K × V)) (k : K) :
    findVal (fromList h l) k = (l.find? (fun p => decide (p.1 = k))).map Prod.snd := by
  unfold fromList
  rw [findVal_foldl_insert l (mk0 h) (mk0_Inv h), findVal_mk0]

/-- Folding `insert` over a list of pairwise-fresh keys increments the size by
the list length. -/
theorem Sz_foldl_insert [Inhabited K] [Inhabited V] (l : List (K × V))
    (hnd : (l.map Prod.fst).Nodup) :
    ∀ m : HashMap K V, Inv m → (∀ p ∈ l, findVal m p.1 = none) →
      (l.foldl insert m).Sz = m.Sz + l.length := by
  induction l with
  | nil => intro m _ _; simp
  | cons p l ih =>
    intro m hinv habs
    rw [List.map_cons, List.nodup_cons] at hnd
    have hpabs : findVal m p.1 = none := habs p (List.mem_cons_self p l)
    have hpend : findCur m p.1 = endCur m := (findVal_none_iff_end m p.1).mp hpabs
    rw [List.foldl_cons]
    have h1 : (insert m p).Sz = m.Sz + 1 := insert_Sz_absent hinv hpend
    have habs1 : ∀ q ∈ l, findVal (insert m p) q.1 = none := by
      intro q hq
      refine findVal_insert_of_none hinv (habs q (List.mem_cons_of_mem p hq)) ?_
      intro he
      exact hnd.1 (by rw [he]; exact List.mem_map_of_mem Prod.fst hq)
    rw [ih hnd.2 (insert m p) (insert_Inv hinv p) habs1, h1, List.length_cons]
    omega

/-- Under key-nodup, `find?` over the item list agrees with `find`. -/
theorem find?_items_eq_findVal [Inhabited K] [Inhabited V] {m : HashMap K V}
    (hwf : WF m) (k : K) :
    ((items m).find? (fun p => decide (p.1 = k))).map Prod.snd = findVal m k := by
  cases h : findVal m k with
  | some v =>
    have hmem := (findVal_eq_some_iff hwf k v).mp h
    cases hfind : (items m).find? (fun p => decide (p.1 = k)) with
    | none =>
      exfalso
      have := List.find?_eq_none.mp hfind (k, v) hmem
      simp at this
    | some q =>
      have hq1 : q ∈ items m := List.mem_of_find?_eq_some hfind
      have hq2 : q.1 = k := by simpa using List.find?_some hfind
      have := List.inj_on_of_nodup_map hwf.2.2.2 hq1 hmem (by rw [hq2])
      rw [this]
      rfl
  | none =>
    have hnone : (items m).find? (fun p => decide (p.1 = k)) = none := by
      rw [List.find?_eq_none]
      intro p hp
      simp only [decide_eq_true_eq]
      intro hpk
      exact (findVal_eq_none_iff hwf k).mp h p.2 (by rw [pair_eta_of_key hpk]; exact hp)
    rw [hnone]
    rfl

/-! ### The iterator walk: characterization of `visitCur` -/

omit [DecidableEq K] in
theorem skipEmpty_le (T : List (List (K × V))) (i : Nat) (h : i ≤ T.length) :
    skipEmpty T i ≤ T.length := by
  unfold skipEmpty
  split
  · split
    · exact skipEmpty_le T (i + 1) (by omega)
    · exact h
  · exact h
termination_by T.length - i

omit [DecidableEq K] in
theorem skipEmpty_stop (T : List (List (K × V))) (i : Nat)
    (h : skipEmpty T i < T.length) : (T.getD (skipEmpty T i) []).length ≠ 0 := by
  by_cases hi : i < T.length
  · by_cases hempty : (T.get ⟨i, hi⟩).length = 0
    · have hrw : skipEmpty T i = skipEmpty T (i + 1) := by
        rw [skipEmpty, dif_pos hi, if_pos hempty]
      rw [hrw] at h ⊢
      exact skipEmpty_stop T (i + 1) h
    · have hrw : skipEmpty T i = i := by
        rw [skipEmpty, dif_pos hi, if_neg hempty]
      rw [hrw, List.getD_eq_getElem _ _ hi]
      simpa using hempty
  · have hrw : skipEmpty T i = i := by
      rw [skipEmpty, dif_neg hi]
    rw [hrw] at h
    omega
termination_by T.length - i

omit [DecidableEq K] in
theorem flatten_drop_skipEmpty (T : List (List (K × V))) (i : Nat) :
    (T.drop i).flatten = (T.drop (skipEmpty T i)).flatten := by
  by_cases hi : i < T.length
  · by_cases hempty : (T.get ⟨i, hi⟩).length = 0
    · have hrw : skipEmpty T i = skipEmpty T (i + 1) := by
        rw [skipEmpty, dif_pos hi, if_pos hempty]
      rw [hrw, ← flatten_drop_skipEmpty T (i + 1)]
      rw [List.drop_eq_getElem_cons hi, List.flatten_cons]
      have hnil : T[i] = [] := by
        have := List.eq_nil_of_length_eq_zero hempty
        simpa using this
      rw [hnil, List.nil_append]
    · have hrw : skipEmpty T i = i := by
        rw [skipEmpty, dif_pos hi, if_neg hempty]
      rw [hrw]
  · have hrw : skipEmpty T i = i := by
      rw [skipEmpty, dif_neg hi]
    rw [hrw]
termination_by T.length - i

omit [DecidableEq K] in
/-- Walking the iterator from a valid in-bucket cursor dereferences, in order,
the rest of the current bucket and then the contents of all later buckets. -/
theorem visitCur_map_deref [Inhabited K] [Inhabited V] (T : List (List (K × V)))
    (b s : Nat) (hb : b < T.length) (hs : s < (T.getD b []).length) :
    (visitCur T b s).map (derefAt T) =
      (T.getD b []).drop s ++ (T.drop (b + 1)).flatten := by
  rw [visitCur, dif_pos hb]
  have hderef : derefAt T (b, s) = (T.getD b [])[s] := by
    unfold derefAt
    exact List.getD_eq_getElem _ _ hs
  by_cases hls : (T.getD b []).length ≤ s + 1
  · rw [if_pos hls, List.map_cons, hderef]
    have hdrop : (T.getD b []).drop s = [(T.getD b [])[s]] := by
      rw [List.drop_eq_getElem_cons hs, List.drop_eq_nil_of_le hls]
    rw [hdrop, List.singleton_append]
    congr 1
    rw [flatten_drop_skipEmpty T (b + 1)]
    by_cases hb2 : skipEmpty T (b + 1) < T.length
    · have hs2 : 0 < (T.getD (skipEmpty T (b + 1)) []).length :=
        Nat.pos_of_ne_zero (skipEmpty_stop T (b + 1) hb2)
      rw [visitCur_map_deref T (skipEmpty T (b + 1)) 0 hb2 hs2]
      rw [List.drop_zero]
      rw [show T.drop (skipEmpty T (b + 1)) =
        T[skipEmpty T (b + 1)] :: T.drop (skipEmpty T (b + 1) + 1) from
        List.drop_eq_getElem_cons hb2]
      rw [List.flatten_cons, List.getD_eq_getElem _ _ hb2]
    · have hb2e : skipEmpty T (b + 1) = T.length :=
        Nat.le_antisymm (skipEmpty_le T (b + 1) (by omega)) (Nat.le_of_not_lt hb2)
      rw [hb2e]
      rw [visitCur, dif_neg (lt_irrefl _)]
      rw [List.drop_length]
      rfl
  · rw [if_neg hls, List.map_cons, hderef]
    push_neg at hls
    rw [visitCur_map_deref T b (s + 1) hb hls]
    rw [List.drop_eq_getElem_cons hs, List.cons_append]
termination_by (T.length - b, (T.getD b []).length - s)
decreasing_by
  · apply Prod.Lex.left
    have := skipEmpty_ge T (b + 1)
    omega
  · apply Prod.Lex.right
    omega

omit [DecidableEq K] in
/-- Walking the iterator from a skip-normalized bucket start dereferences the
contents of all buckets from `i` on. -/
theorem visitCur_from_skip [Inhabited K] [Inhabited V] (T : List (List (K × V)))
    (i : Nat) (hi : i ≤ T.length) :
    (visitCur T (skipEmpty T i) 0).map (derefAt T) = (T.drop i).flatten := by
  rw [flatten_drop_skipEmpty T i]
  by_cases hb2 : skipEmpty T i < T.length
  · have hs2 : 0 < (T.getD (skipEmpty T i) []).length :=
      Nat.pos_of_ne_zero (skipEmpty_stop T i hb2)
    rw [visitCur_map_deref T (skipEmpty T i) 0 hb2 hs2]
    rw [List.drop_zero]
    rw [show T.drop (skipEmpty T i) =
      T[skipEmpty T i] :: T.drop (skipEmpty T i + 1) from
      List.drop_eq_getElem_cons hb2]
    rw [List.flatten_cons, List.getD_eq_getElem _ _ hb2]
  · have hb2e : skipEmpty T i = T.length :=
      Nat.le_antisymm (skipEmpty_le T i hi) (Nat.le_of_not_lt hb2)
    rw [hb2e]
    rw [visitCur, dif_neg (lt_irrefl _)]
    rw [List.drop_length]
    rfl

omit [DecidableEq K] in
/-- An empty table iterates over nothing: `begin() == end()` immediately. -/
theorem iterVals_of_empty [Inhabited K] [Inhabited V] (m : HashMap K V)
    (hsz : m.Sz = 0) : iterVals m = [] := by
  unfold iterVals iterCurs beginCur
  rw [if_pos hsz]
  unfold endCur
  rw [visitCur, dif_neg (lt_irrefl _)]
  rfl

omit [DecidableEq K] in
/-- Iteration from `begin()` to `end()` dereferences exactly the stored
entries, in bucket order then in-bucket insertion order — provided bucket 0 is
non-empty when the table is non-empty. -/
theorem iterVals_eq [Inhabited K] [Inhabited V] {m : HashMap K V} (hwf : WF m)
    (h0 : bucketAt m 0 ≠ [] ∨ m.Sz = 0) : iterVals m = items m := by
  by_cases hsz : m.Sz = 0
  · rw [iterVals_of_empty m hsz, items_eq_nil_of_Sz hwf hsz]
  · have hb0 : bucketAt m 0 ≠ [] := by
      rcases h0 with h | h
      · exact h
      · exact absurd h hsz
    have hlen : 0 < m.Table.length := hwf.1
    have hs0 : 0 < (m.Table.getD 0 []).length := List.length_pos.mpr hb0
    unfold iterVals iterCurs beginCur
    rw [if_neg hsz]
    simp only
    rw [visitCur_map_deref m.Table 0 0 hlen hs0]
    rw [List.drop_zero]
    unfold items
    conv_rhs => rw [list_eq_take_getElem_drop m.Table 0 hlen]
    rw [List.take_zero, List.nil_append, List.flatten_cons]
    rw [List.getD_eq_getElem _ _ hlen]

omit [DecidableEq K] in
/-- When the table is non-empty but bucket 0 is empty, the iteration
dereferences one junk position (`begin()` points into the empty bucket 0, and
dereferencing it is undefined behaviour in the C++) followed by all stored
entries. -/
theorem iterVals_empty_bucket0 [Inhabited K] [Inhabited V] (m : HashMap K V)
    (hsz : m.Sz ≠ 0) (h0 : bucketAt m 0 = []) (hlen : 0 < m.Table.length) :
    iterVals m = derefAt m.Table (0, 0) :: items m := by
  unfold iterVals iterCurs beginCur
  rw [if_neg hsz]
  simp only
  rw [visitCur, dif_pos hlen]
  have h00 : (m.Table.getD 0 []).length ≤ 0 + 1 := by
    have : m.Table.getD 0 [] = [] := h0
    rw [this]
    simp
  rw [if_pos h00, List.map_cons]
  congr 1
  have := visitCur_from_skip m.Table 1 (by omega)
  rw [this]
  unfold items
  conv_rhs => rw [list_eq_take_getElem_drop m.Table 0 hlen]
  rw [List.take_zero, List.nil_append, List.flatten_cons]
  have hb0 : m.Table[0] = [] := by
    have : m.Table.getD 0 [] = m.Table[0] := List.getD_eq_getElem _ _ hlen
    rw [← this]
    exact h0
  rw [hb0, List.nil_append]

/-! ### Copy-assignment -/

theorem selfAssign_eq_clear [Inhabited K] [Inhabited V] (m : HashMap K V) :
    selfAssign m = clear m := by
  show (iterVals (clear m)).foldl insert (clear m) = clear m
  rw [iterVals_of_empty (clear m) rfl]
  rfl

/-- Assignment between distinct objects copies the source exactly (size and
lookups), provided the source's iteration is clean (bucket 0 non-empty or
source empty). -/
theorem assign_spec [Inhabited K] [Inhabited V] (dst : HashMap K V)
    {src : HashMap K V} (hwf : WF src) (h0 : bucketAt src 0 ≠ [] ∨ src.Sz = 0) :
    (assign dst src).Sz = src.Sz ∧
    ∀ k, findVal (assign dst src) k = findVal src k := by
  unfold assign
  rw [iterVals_eq hwf h0]
  constructor
  · rw [Sz_foldl_insert (items src) hwf.2.2.2 (clear dst) (clear_Inv dst)
      (fun p _ => findVal_clear dst p.1)]
    rw [show (clear dst).Sz = 0 from rfl, hwf.2.1]
    omega
  · intro k
    rw [findVal_foldl_insert (items src) (clear dst) (clear_Inv dst), findVal_clear]
    exact find?_items_eq_findVal hwf k

/-! ### Indexed access and writes through the returned reference -/

theorem findSlot_set {k : K} {v : V} :
    ∀ (l : List (K × V)) (j : Nat), findSlot k l = some j →
      findSlot k (l.set j (k, v)) = some j := by
  intro l
  induction l with
  | nil => intro j h; simp [findSlot] at h
  | cons p rest ih =>
    intro j h
    unfold findSlot at h
    by_cases hp : p.1 = k
    · rw [if_pos hp] at h
      cases h
      rw [List.set_cons_zero]
      simp [findSlot]
    · rw [if_neg hp] at h
      cases hs : findSlot k rest with
      | none => rw [hs] at h; simp at h
      | some j0 =>
        rw [hs] at h
        simp only [Option.map_some'] at h
        cases h
        rw [List.set_cons_succ]
        unfold findSlot
        rw [if_neg hp, ih j0 hs]
        rfl

omit [DecidableEq K] in
/-- `writeCur` at an explicit cursor, with the pair projections reduced. -/
theorem writeCur_mk [Inhabited K] [Inhabited V] (m : HashMap K V) (i j : Nat) (v : V) :
    writeCur m (i, j) v = { m with Table := m.Table.set i ((m.Table.getD i []).set j (((m.Table.getD i []).getD j default).1, v)) } := rfl

omit [DecidableEq K] in
theorem writeCur_length [Inhabited K] [Inhabited V] (m : HashMap K V)
    (c : Nat × Nat) (v : V) :
    (writeCur m c v).Table.length = m.Table.length := by
  unfold writeCur
  simp [List.length_set]

/-- Writing through the reference returned by a successful `find` replaces
that entry's value, and the key becomes findable with the new value. -/
theorem writeCur_findVal [Inhabited K] [Inhabited V] {m : HashMap K V} (hwf : WF m)
    {k : K} (hne : findCur m k ≠ endCur m) (v : V) :
    findVal (writeCur m (findCur m k) v) k = some v := by
  obtain ⟨hsz, j, hslot, hcur⟩ := findCur_hit hne
  obtain ⟨hj, hkey, hgd⟩ := findSlot_some k _ j hslot
  have hi : get_hash m k < m.Table.length := Nat.mod_lt _ hwf.1
  rw [hcur, writeCur_mk]
  have hbk : ((m.Table.getD (get_hash m k) []).getD j default).1 = k := by
    have h1 : (m.Table.getD (get_hash m k) []).getD j default
        = (bucketAt m (get_hash m k))[j] := hgd default
    rw [h1]
    exact hkey
  rw [hbk]
  have hw_len : (m.Table.set (get_hash m k)
      ((m.Table.getD (get_hash m k) []).set j (k, v))).length = m.Table.length :=
    List.length_set _ _ _
  have hw_bucket : (m.Table.set (get_hash m k)
      ((m.Table.getD (get_hash m k) []).set j (k, v))).getD (get_hash m k) [] =
      (m.Table.getD (get_hash m k) []).set j (k, v) := by
    rw [List.getD_eq_getElem _ _ (by rw [List.length_set]; exact hi),
      List.getElem_set_self]
  have hslot2 : findSlot k ((m.Table.getD (get_hash m k) []).set j (k, v)) = some j :=
    findSlot_set _ j hslot
  have hcur2 : findCur { m with Table := m.Table.set (get_hash m k) ((m.Table.getD (get_hash m k) []).set j (k, v)) } k = (get_hash m k, j) := by
    unfold findCur
    rw [if_neg (by simpa using hsz)]
    have hgh : get_hash { m with Table := m.Table.set (get_hash m k) ((m.Table.getD (get_hash m k) []).set j (k, v)) } k = get_hash m k := by
      show m.HashFunction k % (m.Table.set (get_hash m k) ((m.Table.getD (get_hash m k) []).set j (k, v))).length = get_hash m k
      rw [hw_len]
      rfl
    rw [hgh]
    have hba : bucketAt { m with Table := m.Table.set (get_hash m k) ((m.Table.getD (get_hash m k) []).set j (k, v)) } (get_hash m k) = (m.Table.getD (get_hash m k) []).set j (k, v) := hw_bucket
    rw [hba, hslot2]
  have hne2 : findCur { m with Table := m.Table.set (get_hash m k) ((m.Table.getD (get_hash m k) []).set j (k, v)) } k ≠ endCur { m with Table := m.Table.set (get_hash m k) ((m.Table.getD (get_hash m k) []).set j (k, v)) } := by
    rw [hcur2]
    unfold endCur
    simp only
    rw [hw_len]
    intro hcontra
    have := congrArg Prod.fst hcontra
    simp only at this
    omega
  unfold findVal findEntry
  rw [if_neg hne2, hcur2]
  have hderef : derefAt (m.Table.set (get_hash m k)
      ((m.Table.getD (get_hash m k) []).set j (k, v))) (get_hash m k, j) = (k, v) := by
    unfold derefAt
    simp only
    rw [hw_bucket]
    rw [List.getD_eq_getElem _ _ (by rw [List.length_set]; exact hj),
      List.getElem_set_self]
  rw [hderef]
  rfl

/-- The entry a non-end `find` cursor dereferences to has the searched key. -/
theorem findCur_deref_key [Inhabited K] [Inhabited V] {m : HashMap K V} {k : K}
    (hne : findCur m k ≠ endCur m) : (derefAt m.Table (findCur m k)).1 = k := by
  obtain ⟨hsz, j, hslot, hcur⟩ := findCur_hit hne
  obtain ⟨hj, hkey, hgd⟩ := findSlot_some k _ j hslot
  rw [hcur]
  unfold derefAt
  have : (m.Table.getD (get_hash m k) []).getD j default =
      (bucketAt m (get_hash m k))[j] := hgd default
  rw [this]
  exact hkey

theorem indexCur_present [Inhabited K] [Inhabited V] {m : HashMap K V} {k : K}
    (h : findCur m k ≠ endCur m) : indexCur m k = (m, findCur m k) := by
  unfold indexCur
  rw [if_neg (by simpa using h)]

theorem indexCur_absent [Inhabited K] [Inhabited V] {m : HashMap K V} {k : K}
    (hinv : Inv m) (h : findCur m k = endCur m) :
    (indexCur m k).1 = insert m (k, (default : V)) ∧
    (indexCur m k).1.Sz = m.Sz + 1 ∧
    findVal (indexCur m k).1 k = some (default : V) := by
  unfold indexCur
  rw [if_pos h]
  exact ⟨rfl, insert_Sz_absent hinv h, @findVal_insert_self K V _ _ _ m (k, (default : V)) hinv h⟩

/-- A write through the reference returned by `operator[]` is visible via
`find`. -/
theorem indexCur_write [Inhabited K] [Inhabited V] {m : HashMap K V} {k : K}
    (hinv : Inv m) (v : V) :
    findVal (writeCur (indexCur m k).1 (indexCur m k).2 v) k = some v := by
  unfold indexCur
  by_cases h : findCur m k = endCur m
  · rw [if_pos h]
    simp only
    have hinv1 := insert_Inv hinv (k, (default : V))
    have hsome := @findVal_insert_self K V _ _ _ m (k, (default : V)) hinv h
    have hne : findCur (insert m (k, (default : V))) k ≠
        endCur (insert m (k, (default : V))) := by
      intro hend
      have := (findVal_none_iff_end _ _).mpr hend
      rw [hsome] at this
      exact Option.some_ne_none _ this
    exact writeCur_findVal hinv1.1 hne v
  · rw [if_neg h]
    simp only
    exact writeCur_findVal hinv.1 h v

/-! ### No division (modulo) by zero in any `get_hash` evaluation -/

/-- `insertModuli` with its `let` binding inlined. -/
theorem insertModuli_eq (m : HashMap K V) (kv : K × V) :
    insertModuli m kv =
      (if m.Sz = 0 then [] else [m.Table.length]) ++
        if findCur m kv.1 ≠ endCur m then []
        else
          [m.Table.length] ++
            (if is_dense (add m kv) then resizeModuli (add m kv) ((add m kv).Sz * ResizeFactor)
             else if is_sparse (add m kv) then
               resizeModuli (add m kv) ((add m kv).Sz / ResizeFactor)
             else []) := rfl

/-- `eraseModuli` with its `let` binding inlined. -/
theorem eraseModuli_eq (m : HashMap K V) (k : K) :
    eraseModuli m k =
      [m.Table.length] ++
        (if is_dense (del m k) then resizeModuli (del m k) ((del m k).Sz * ResizeFactor)
         else if is_sparse (del m k) then
           resizeModuli (del m k) ((del m k).Sz / ResizeFactor)
         else []) := rfl

theorem insertModuli_no_zero {m : HashMap K V} (hinv : Inv m) (kv : K × V) :
    0 ∉ insertModuli m kv := by
  obtain ⟨hwf, hup, hlow, j, hjle, hj⟩ := hinv
  have hlen := hwf.1
  have hwf1 : WF (add m kv) → (add m kv).Sz = (items (add m kv)).length := fun h => h.2.1
  rw [insertModuli_eq]
  intro hmem
  rw [List.mem_append] at hmem
  rcases hmem with h1 | h1
  · split at h1
    · exact absurd h1 (List.not_mem_nil 0)
    · rw [List.mem_singleton] at h1
      omega
  · split at h1
    · exact absurd h1 (List.not_mem_nil 0)
    · rename_i habs
      push_neg at habs
      rw [List.mem_append] at h1
      rcases h1 with h2 | h2
      · rw [List.mem_singleton] at h2
        omega
      · have hsz1 : (add m kv).Sz = m.Sz + 1 := add_Sz m kv
        have hlen1 : (add m kv).Table.length = m.Table.length := add_length m kv
        split at h2
        · unfold resizeModuli at h2
          rw [List.mem_replicate] at h2
          unfold ResizeFactor at h2
          omega
        · split at h2
          · rename_i hnotdense hsparse
            rw [is_sparse_iff, hsz1, hlen1] at hsparse
            unfold resizeModuli at h2
            rw [List.mem_replicate] at h2
            have hcount : (items (add m kv)).length = (add m kv).Sz :=
              (add_WF hwf habs).2.1.symm
            unfold LoadFactor ResizeFactor at *
            rcases hlow with hl | hl
            · omega
            · omega
          · exact absurd h2 (List.not_mem_nil 0)

theorem eraseModuli_no_zero {m : HashMap K V} (hinv : Inv m) (k : K) :
    0 ∉ eraseModuli m k := by
  obtain ⟨hwf, hup, hlow, j, hjle, hj⟩ := hinv
  have hlen := hwf.1
  have hwf1 : WF (del m k) := del_WF hwf k
  have hlen1 : (del m k).Table.length = m.Table.length := del_length m k
  have hszc := del_Sz_cases hwf k
  rw [eraseModuli_eq]
  intro hmem
  rw [List.mem_append] at hmem
  rcases hmem with h1 | h1
  · rw [List.mem_singleton] at h1
    omega
  · split at h1
    · rename_i hdense
      rw [is_dense_iff, hlen1] at hdense
      unfold resizeModuli at h1
      rw [List.mem_replicate] at h1
      unfold ResizeFactor at h1
      omega
    · split at h1
      · rename_i hnotdense hsparse
        rw [is_sparse_iff, hlen1] at hsparse
        unfold resizeModuli at h1
        rw [List.mem_replicate] at h1
        have hcount : (items (del m k)).length = (del m k).Sz := hwf1.2.1.symm
        have hone := orbitF_one_or_ge j
        unfold LoadFactor ResizeFactor at *
        rcases hszc with he | he
        · rw [he] at h1 hsparse hcount
          rcases hlow with hl | hl
          · omega
          · omega
        · rcases hlow with hl | hl
          · omega
          · omega
      · exact absurd h1 (List.not_mem_nil 0)

/-! ### Last helpers for the claim theorems -/

theorem foldl_insert_Inv (l : List (K × V)) :
    ∀ t : HashMap K V, Inv t → Inv (l.foldl insert t) := by
  induction l with
  | nil => intro t h; exact h
  | cons p l ih =>
    intro t h
    rw [List.foldl_cons]
    exact ih (insert t p) (insert_Inv h p)

theorem findEntry_components [Inhabited K] [Inhabited V] {m : HashMap K V} {k : K}
    {p : K × V} (h : findEntry m k = some p) :
    findCur m k ≠ endCur m ∧ derefAt m.Table (findCur m k) = p := by
  unfold findEntry at h
  by_cases he : findCur m k = endCur m
  · rw [if_pos he] at h
    exact absurd h (by simp)
  · rw [if_neg he] at h
    exact ⟨he, (Option.some.injEq _ _).mp h⟩

/-! ### Concrete example tables (witness and counterexample inputs) -/

/-- The identity hash function on natural keys. -/
def idHash : Nat → Nat := fun k => k

/-- The pairs `(1, 10), (2, 20), …, (n, n*10)`. -/
def pairsN (n : Nat) : List (Nat × Nat) :=
  (List.range n).map (fun i => (i + 1, (i + 1) * 10))

/-- A one-entry table: `insert (1, 5)` into a fresh table. -/
def exTable1 : HashMap Nat Nat := insert (mk0 idHash) (1, 5)

/-- Ten entries with identity hash: one bucket, size 10 (on the verge of the
grow trigger). -/
def exTable10 : HashMap Nat Nat := fromList idHash (pairsN 10)

/-- Eleven entries with identity hash: the 11th insert grows the table to 22
buckets; keys 1..11 land in buckets 1..11, leaving bucket 0 empty. -/
def exTable11 : HashMap Nat Nat := fromList idHash (pairsN 11)

/-! ### Claim theorems -/

/-- C1: inserting a key that is already present leaves the table completely
unchanged (first-write-wins: the value is not overwritten, the size does not
change, no entry is added — the whole state is equal); consequently every
table built by a sequence of inserts has at most one entry per distinct key,
and construction from a pair list keeps the value of the first occurrence of
each key (`find?` returns the first match). -/
theorem C1_insert_first_write_wins {K V : Type} [DecidableEq K] [Inhabited K] [Inhabited V] :
    (∀ (t : HashMap K V) (k : K) (v : V), WF t → (∃ w, (k, w) ∈ items t) →
      insert t (k, v) = t) ∧
    (∀ (h : K → Nat) (l : List (K × V)),
      ((items (fromList h l)).map Prod.fst).Nodup) ∧
    (∀ (h : K → Nat) (l : List (K × V)) (k : K),
      findVal (fromList h l) k = (l.find? (fun p => decide (p.1 = k))).map Prod.snd) := by
  refine ⟨?_, ?_, ?_⟩
  · intro t k v hwf hpresent
    refine insert_hit_eq ?_
    rw [Ne, findCur_end_iff hwf k]
    push_neg
    obtain ⟨w, hw⟩ := hpresent
    exact ⟨w, hw⟩
  · intro h l
    exact (foldl_insert_Inv l (mk0 h) (mk0_Inv h)).1.2.2.2
  · intro h l k
    exact findVal_fromList h l k

/-- Witness for C1 at concrete inputs: re-inserting key 1 into the one-entry
table is a no-op, and building from `[(1,10),(1,20),(2,30)]` keeps `1 ↦ 10`. -/
theorem C1_witness :
    insert exTable1 (1, 99) = exTable1 ∧
    findVal (fromList idHash [(1, 10), (1, 20), (2, 30)]) 1 = some 10 := by
  constructor
  · exact C1_insert_first_write_wins.1 exTable1 1 99 (by decide) ⟨5, by decide⟩
  · rw [C1_insert_first_write_wins.2.2 idHash [(1, 10), (1, 20), (2, 30)] 1]
    decide

/-- C2: round-trip of insert, find and erase.  (a) Inserting an absent key
`k` with value `v` makes `find(k)` a non-end cursor dereferencing to
`(k, v)`; (b) this persists under any further sequence of inserts and erases
that never erases `k`; (c) after `erase(k)`, `find(k)` is the end cursor. -/
theorem C2_roundtrip {K V : Type} [DecidableEq K] [Inhabited K] [Inhabited V] :
    (∀ (t : HashMap K V) (k : K) (v : V), Inv t → findCur t k = endCur t →
      findCur (insert t (k, v)) k ≠ endCur (insert t (k, v)) ∧
      derefAt (insert t (k, v)).Table (findCur (insert t (k, v)) k) = (k, v)) ∧
    (∀ (t : HashMap K V) (k : K) (v : V) (ops : List (Op K V)), Inv t →
      findVal t k = some v → (∀ o ∈ ops, o ≠ Op.del k) →
      findVal (applyOps t ops) k = some v) ∧
    (∀ (t : HashMap K V) (k : K), WF t →
      findCur (erase t k) k = endCur (erase t k)) := by
  refine ⟨?_, ?_, ?_⟩
  · intro t k v hinv habs
    have hwf1 : WF (insert t (k, v)) := (insert_Inv hinv (k, v)).1
    have hmem : (k, v) ∈ items (insert t (k, v)) :=
      ((insert_items_perm hinv habs).mem_iff).mpr (List.mem_cons_self _ _)
    have hentry : findEntry (insert t (k, v)) k = some (k, v) :=
      (findEntry_eq_some_iff hwf1 k (k, v)).mpr ⟨hmem, rfl⟩
    exact findEntry_components hentry
  · intro t k v ops hinv hv hno
    exact findVal_applyOps ops t hinv hv hno
  · intro t k hwf
    exact findCur_erase_self hwf k

/-- Witness for C2 at concrete inputs. -/
theorem C2_witness :
    (findCur (insert exTable1 (7, 70)) 7 ≠ endCur (insert exTable1 (7, 70)) ∧
      derefAt (insert exTable1 (7, 70)).Table (findCur (insert exTable1 (7, 70)) 7) = (7, 70)) ∧
    findVal (applyOps exTable1 [Op.ins (2, 9), Op.del 2]) 1 = some 5 ∧
    findCur (erase exTable1 1) 1 = endCur (erase exTable1 1) := by
  refine ⟨?_, ?_, ?_⟩
  · exact C2_roundtrip.1 exTable1 7 70 (by decide) (by decide)
  · exact C2_roundtrip.2.1 exTable1 1 5 [Op.ins (2, 9), Op.del 2] (by decide) (by decide)
      (by decide)
  · exact C2_roundtrip.2.2 exTable1 1 (by decide)

/-- C3: load-factor invariant — in every reachable table state (after any
construction, insert or erase completes, including any resize it triggers),
`size ≤ bucket_count * 10`, and `size * 10 ≥ bucket_count` except that the
bucket count may be 1 (the floor-of-1 exception). -/
theorem C3_load_factor {K V : Type} [DecidableEq K] :
    ∀ t : HashMap K V, Reachable t →
      t.Sz ≤ t.Table.length * LoadFactor ∧
      (t.Table.length ≤ t.Sz * LoadFactor ∨ t.Table.length = 1) := by
  intro t hr
  have h := reachable_inv hr
  exact ⟨h.2.1, h.2.2.1⟩

/-- Witness for C3 at a concrete reachable state. -/
theorem C3_witness :
    exTable1.Sz ≤ exTable1.Table.length * LoadFactor ∧
    (exTable1.Table.length ≤ exTable1.Sz * LoadFactor ∨ exTable1.Table.length = 1) :=
  C3_load_factor exTable1 (Reachable.ins _ _ (Reachable.base idHash))

/-- C4 counterexample: the claim says a growth-triggering insert doubles the
bucket count.  On the code, inserting the 11th key into a fresh (1-bucket)
table triggers growth and sets the bucket count to `size * 2 = 22`, not to
`1 * 2 = 2`: `resize` is called with `size() * ResizeFactor`. -/
theorem C4_counterexample :
    exTable10.Table.length = 1 ∧
    exTable10.Table.length * LoadFactor < exTable10.Sz + 1 ∧
    (insert exTable10 (11, 110)).Table.length = 22 ∧
    (insert exTable10 (11, 110)).Table.length ≠ exTable10.Table.length * ResizeFactor := by
  decide

/-- C4 (amended): when an insert brings the element count to
`size > bucket_count * 10`, the bucket count after the insert equals the NEW
ELEMENT COUNT times the resize factor 2 (`resize(size() * ResizeFactor)` in
the code — not the previous bucket count times 2), and every surviving entry
is placed in bucket `hash(key) mod new_bucket_count`. -/
theorem C4_grow_rule {K V : Type} [DecidableEq K] :
    ∀ (t : HashMap K V) (kv : K × V), Inv t → findCur t kv.1 = endCur t →
      t.Table.length * LoadFactor < t.Sz + 1 →
      (insert t kv).Table.length = (t.Sz + 1) * ResizeFactor ∧
      ∀ i, i < (insert t kv).Table.length →
        ∀ p ∈ bucketAt (insert t kv) i,
          t.HashFunction p.1 % (insert t kv).Table.length = i := by
  intro t kv hinv habs hdense
  have hwf1 : WF (insert t kv) := (insert_Inv hinv kv).1
  have hsz1 : (add t kv).Sz = t.Sz + 1 := add_Sz t kv
  have hlen1 : (add t kv).Table.length = t.Table.length := add_length t kv
  have hd : is_dense (add t kv) = true := by
    rw [is_dense_iff, hsz1, hlen1]
    exact hdense
  have hins : insert t kv = resize (add t kv) ((add t kv).Sz * ResizeFactor) := by
    rw [insert_eq, if_neg (by simpa using habs), if_pos hd]
  have hn : 0 < (add t kv).Sz * ResizeFactor := by
    rw [hsz1]
    unfold ResizeFactor
    omega
  constructor
  · rw [hins, resize_length _ hn, hsz1]
  · intro i hi p hp
    have hh := hwf1.2.2.1 i hi p hp
    have hhf : (insert t kv).HashFunction = t.HashFunction := by
      rw [hins, resize_HashFunction, add_HashFunction]
    rwa [hhf] at hh

/-- Witness for the amended C4 at the concrete growth step 10 → 11 entries. -/
theorem C4_witness :
    (insert exTable10 (11, 110)).Table.length = (exTable10.Sz + 1) * ResizeFactor :=
  (C4_grow_rule exTable10 (11, 110) (by decide) (by decide) (by decide)).1

/-- C5 counterexample: the claim says iterating from `begin()` to `end()`
dereferences every entry exactly once.  On the table with keys 1..11 (identity
hash, 22 buckets, bucket 0 empty), `begin()` is the cursor `(0, 0)` into the
EMPTY bucket 0: the loop dereferences 12 positions for 11 entries, and the
first dereference reads past the end of an empty vector (undefined behaviour
in the C++, a junk default value in this embedding), so the dereferenced
sequence is not the entry sequence. -/
theorem C5_counterexample :
    iterVals exTable11 ≠ items exTable11 ∧
    (iterVals exTable11).length = exTable11.Sz + 1 := by
  have h := iterVals_empty_bucket0 exTable11 (by decide) (by decide) (by decide)
  constructor
  · rw [h]
    intro hc
    have := congrArg List.length hc
    simp at this
  · rw [h, List.length_cons]
    decide

/-- C5 (amended): for every well-formed table whose bucket 0 is non-empty —
or which is empty — iterating from `begin()` to `end()` by repeated increment
and dereferencing at each position visits exactly the stored entries, each
once, in ascending bucket order and, within a bucket, in insertion
(`push_back`) order: the dereferenced sequence equals the concatenation of
the buckets.  (When the table is non-empty with an empty bucket 0, `begin()`
yields a cursor into the empty bucket whose dereference is undefined
behaviour — the spec's documented edge case.) -/
theorem C5_iteration_complete {K V : Type} [DecidableEq K] [Inhabited K] [Inhabited V] :
    ∀ t : HashMap K V, WF t → (bucketAt t 0 ≠ [] ∨ t.Sz = 0) →
      iterVals t = items t := by
  intro t hwf h0
  exact iterVals_eq hwf h0

/-- Witness for the amended C5: the ten-entry one-bucket table iterates to
exactly its entry list. -/
theorem C5_witness : iterVals exTable10 = items exTable10 :=
  C5_iteration_complete exTable10 (by decide) (by decide)

/-- C6 counterexample: the claim includes the case where the two tables are
the same object.  The code's `operator=` first `clear()`s the destination and
then iterates over the source — the same, now empty, object — so `a = a`
empties the table instead of preserving it: afterwards `a.size()` is 0, not
the prior size 1. -/
theorem C6_counterexample :
    (selfAssign exTable1).Sz = 0 ∧ exTable1.Sz = 1 := by
  constructor
  · rw [selfAssign_eq_clear]
    rfl
  · decide

/-- C6 (amended): for distinct tables `a`, `b` with `b` well-formed and `b`'s
iteration clean (bucket 0 non-empty or `b` empty), after `a = b` the table
`a` holds exactly `b`'s key-value pairs: equal size and equal lookups for
every key, with `b`'s iteration order used as insertion order into `a`.
(Both restrictions are forced by the code: self-assignment clears the shared
object first, and a source with `size() > 0` but empty bucket 0 makes the
copy loop dereference an invalid cursor.) -/
theorem C6_copy_assign {K V : Type} [DecidableEq K] [Inhabited K] [Inhabited V] :
    ∀ (a : HashMap K V) {b : HashMap K V}, WF b → (bucketAt b 0 ≠ [] ∨ b.Sz = 0) →
      (assign a b).Sz = b.Sz ∧ ∀ k, findVal (assign a b) k = findVal b k := by
  intro a b hwf h0
  exact assign_spec a hwf h0

/-- Witness for the amended C6: assigning the ten-entry table into a fresh
table copies its size and the binding of key 3. -/
theorem C6_witness :
    (assign (mk0 idHash) exTable10).Sz = exTable10.Sz ∧
    findVal (assign (mk0 idHash) exTable10) 3 = findVal exTable10 3 := by
  have h := @C6_copy_assign Nat Nat _ _ _ (mk0 idHash) exTable10 (by decide) (by decide)
  exact ⟨h.1, h.2 3⟩

/-- C7: `at(key)` returns the stored value when the key is present and fails
with the out-of-range error (message "incorrect key" in the code; the spec
calls the condition a "key not found" error) when absent; `at` is a `const`
member, embedded as a pure function of the table, so the failure leaves the
table unmodified by construction; on an empty table it always fails and the
size stays 0. -/
theorem C7_at_error_handling {K V : Type} [DecidableEq K] [Inhabited K] [Inhabited V] :
    (∀ (t : HashMap K V) (k : K) (v : V), findVal t k = some v →
      atVal t k = Except.ok v) ∧
    (∀ (t : HashMap K V) (k : K), findCur t k = endCur t →
      atVal t k = Except.error "incorrect key") ∧
    (∀ (h : K → Nat) (k : K), atVal (mk0 h : HashMap K V) k = Except.error "incorrect key" ∧
      (mk0 h : HashMap K V).Sz = 0) := by
  refine ⟨?_, ?_, ?_⟩
  · intro t k v hv
    unfold findVal findEntry at hv
    unfold atVal
    by_cases he : findCur t k = endCur t
    · rw [if_pos he] at hv
      exact absurd hv (by simp)
    · rw [if_neg he] at hv ⊢
      simp only [Option.map_some'] at hv
      rw [(Option.some.injEq _ _).mp hv]
  · intro t k he
    unfold atVal
    rw [if_pos he]
  · intro h k
    constructor
    · unfold atVal
      rw [if_pos (by unfold findCur mk0; rw [if_pos rfl])]
    · rfl

/-- Witness for C7 at concrete inputs: a hit returns `ok`, a miss the error. -/
theorem C7_witness :
    atVal exTable1 1 = Except.ok 5 ∧
    atVal exTable1 9 = Except.error "incorrect key" :=
  ⟨C7_at_error_handling.1 exTable1 1 5 (by decide),
   C7_at_error_handling.2.1 exTable1 9 (by decide)⟩

/-- C8: indexed access `t[k]` never fails: when `k` is present it leaves the
table unchanged and returns a cursor to the entry with key `k`; when `k` is
absent it first inserts `(k, default)` — incrementing the size by exactly 1 —
and the inserted default value is findable; in both cases a write through the
returned reference is visible via `find(k)`. -/
theorem C8_indexed_access {K V : Type} [DecidableEq K] [Inhabited K] [Inhabited V] :
    (∀ (t : HashMap K V) (k : K), findCur t k ≠ endCur t →
      indexCur t k = (t, findCur t k) ∧ (derefAt t.Table (findCur t k)).1 = k) ∧
    (∀ (t : HashMap K V) (k : K), Inv t → findCur t k = endCur t →
      (indexCur t k).1 = insert t (k, (default : V)) ∧
      (indexCur t k).1.Sz = t.Sz + 1 ∧
      findVal (indexCur t k).1 k = some (default : V)) ∧
    (∀ (t : HashMap K V) (k : K) (v : V), Inv t →
      findVal (writeCur (indexCur t k).1 (indexCur t k).2 v) k = some v) := by
  refine ⟨?_, ?_, ?_⟩
  · intro t k h
    exact ⟨indexCur_present h, findCur_deref_key h⟩
  · intro t k hinv h
    exact indexCur_absent hinv h
  · intro t k v hinv
    exact indexCur_write hinv v

/-- Witness for C8 at concrete inputs. -/
theorem C8_witness :
    indexCur exTable1 1 = (exTable1, findCur exTable1 1) ∧
    (indexCur exTable1 9).1.Sz = exTable1.Sz + 1 ∧
    findVal (writeCur (indexCur exTable1 2).1 (indexCur exTable1 2).2 77) 2 = some 77 := by
  refine ⟨?_, ?_, ?_⟩
  · exact (C8_indexed_access.1 exTable1 1 (by decide)).1
  · exact (C8_indexed_access.2.1 exTable1 9 (by decide) (by decide)).2.1
  · exact C8_indexed_access.2.2 exTable1 2 77 (by decide)

/-- C9: in every reachable table state the bucket count is at least 1 — the
shrink that divides to 0 is forced back to one bucket — and no `get_hash`
evaluation performed by `insert` or `erase` (inside `find`, `add`, `del`, or
`resize`'s rehash loop) takes a modulus of zero: 0 never occurs among the
moduli those operations evaluate. -/
theorem C9_no_zero_modulus {K V : Type} [DecidableEq K] :
    ∀ t : HashMap K V, Reachable t →
      0 < t.Table.length ∧
      (∀ kv : K × V, 0 ∉ insertModuli t kv) ∧
      (∀ k : K, 0 ∉ eraseModuli t k) := by
  intro t hr
  have h := reachable_inv hr
  exact ⟨h.1.1, fun kv => insertModuli_no_zero h kv, fun k => eraseModuli_no_zero h k⟩

/-- Witness for C9 at a concrete reachable state. -/
theorem C9_witness :
    0 < exTable1.Table.length ∧
    0 ∉ insertModuli exTable1 (2, 7) ∧
    0 ∉ eraseModuli exTable1 1 := by
  have h := C9_no_zero_modulus exTable1 (Reachable.ins _ _ (Reachable.base idHash))
  exact ⟨h.1, h.2.1 (2, 7), h.2.2 1⟩

/-- C10: for every table with at least one bucket (every reachable table),
`begin() == end()` iff the table is empty; when non-empty, `begin()` is the
cursor `(0, 0)` and `end()` is `(bucket_count, 0)` over the same storage, and
they are distinct since the bucket count is at least 1.  (The mutable and
constant iterator interfaces have identical bodies in the C++ and share this
embedding.) -/
theorem C10_begin_end {K V : Type} [DecidableEq K] :
    ∀ t : HashMap K V, 0 < t.Table.length →
      (beginCur t = endCur t ↔ t.Sz = 0) ∧
      (t.Sz ≠ 0 → beginCur t = (0, 0) ∧ endCur t = (t.Table.length, 0) ∧
        beginCur t ≠ endCur t) := by
  intro t hlen
  have hb : t.Sz ≠ 0 → beginCur t = (0, 0) := by
    intro h
    unfold beginCur
    rw [if_neg h]
  constructor
  · constructor
    · intro he
      by_contra hsz
      rw [hb hsz] at he
      unfold endCur at he
      have := congrArg Prod.fst he
      simp only at this
      omega
    · intro hsz
      unfold beginCur
      rw [if_pos hsz]
  · intro hsz
    refine ⟨hb hsz, rfl, ?_⟩
    rw [hb hsz]
    unfold endCur
    intro he
    have := congrArg Prod.fst he
    simp only at this
    omega

/-- Witness for C10 at a concrete non-empty table. -/
theorem C10_witness :
    (beginCur exTable1 = endCur exTable1 ↔ exTable1.Sz = 0) ∧
    (beginCur exTable1 = (0, 0) ∧ endCur exTable1 = (exTable1.Table.length, 0) ∧
      beginCur exTable1 ≠ endCur exTable1) := by
  have h := C10_begin_end exTable1 (by decide)
  exact ⟨h.1, h.2 (by decide)⟩

end HashMap
